import Mathlib

/-!
Verification of the manifest reconciliation and merge engine of the
bowtie-risk-analytics ingestion pipeline.

The development shallowly embeds the Python modules
`src/ingestion/manifests.py`, `src/ingestion/structured.py` and the
download routines of `src/ingestion/sources/{csb,bsee}.py`:

* Python's `dict` (insertion ordered, value updated in place) is modelled
  as an association list with an order-preserving `upsert`;
* `Optional[T]` fields become `Option`; Python truthiness of strings
  (`None` and `""` are both falsy) is made explicit via `strTruthy` /
  `optStrTruthy`;
* `datetime` values are modelled by their civil components plus an
  optional UTC offset in minutes; chronological comparison goes through
  `DateTime.instantMicros` (days-from-civil calendar arithmetic).
  Comparing an aware with a naive datetime raises in Python; the model
  totalises that case by treating a missing offset as UTC;
* the CSV layer is modelled at the level of cell lists: the `csv` module's
  quoting is assumed to transport each cell verbatim.
-/

set_option maxHeartbeats 1000000

namespace Bowtie

/-- Literal source enum of `IncidentManifestRow.source` (`"csb" | "bsee"`). -/
inductive Source where
  | csb
  | bsee
  deriving DecidableEq, Repr

/-- Civil datetime components with an optional UTC offset in minutes,
modelling Python `datetime` (aware when `tzOffsetMinutes` is `some`). -/
structure DateTime where
  year : Nat
  month : Nat
  day : Nat
  hour : Nat
  minute : Nat
  second : Nat
  microsecond : Nat
  tzOffsetMinutes : Option Int
  deriving DecidableEq, Repr

/-- Days since 0000-03-01 of a civil date (Gregorian calendar), valid for
`year ≥ 1`; standard days-from-civil computation. -/
def daysFromCivil (y m d : Nat) : Nat :=
  let y2 := if m ≤ 2 then y - 1 else y
  let era := y2 / 400
  let yoe := y2 % 400
  let mp := (m + 9) % 12
  let doy := (153 * mp + 2) / 5 + (d - 1)
  let doe := yoe * 365 + yoe / 4 - yoe / 100 + doy
  era * 146097 + doe

/-- Absolute timeline position in microseconds, used for chronological
comparison of datetimes (Python subtracts the UTC offset when comparing
aware datetimes). -/
def DateTime.instantMicros (dt : DateTime) : Int :=
  ((((daysFromCivil dt.year dt.month dt.day * 24 + dt.hour) * 60 + dt.minute) * 60
      + dt.second : Nat) : Int) * 1000000 + (dt.microsecond : Int)
    - (dt.tzOffsetMinutes.getD 0) * 60 * 1000000

/-- Row of `incidents_manifest_v0.csv`, from `IncidentManifestRow` in
`src/ingestion/manifests.py` (field order preserved). -/
structure IncidentManifestRow where
  source : Source
  incident_id : String
  title : String
  date_occurred : Option String := none
  date_report_released : Option String := none
  detail_url : String
  pdf_url : String
  pdf_path : String
  downloaded : Bool := false
  retrieved_at : Option DateTime := none
  http_status : Option Int := none
  content_type : Option String := none
  file_size_bytes : Option Int := none
  sha256 : Option String := none
  error : Option String := none
  deriving DecidableEq, Repr

/-- Python truthiness of a `str`: the empty string is falsy. -/
def strTruthy (s : String) : Bool :=
  !s.isEmpty

/-- Python truthiness of an `Optional[str]`: `None` and `""` are falsy. -/
def optStrTruthy : Option String → Bool
  | none => false
  | some s => !s.isEmpty

/-! ## Association-list model of Python `dict`

`upsert` replaces the value of an existing key in place (keeping its
position) and otherwise appends the binding at the end — exactly the
insertion-order semantics of `d[k] = v` on a Python dict.  `findRow` is
`d[k]` / `k in d`. -/

variable {κ ρ : Type} [DecidableEq κ]

/-- Ordered association list standing for a Python dict. -/
abbrev Assoc (κ ρ : Type) := List (κ × ρ)

/-- Python `d[k] = v`: update in place if present, else append. -/
def upsert : Assoc κ ρ → κ → ρ → Assoc κ ρ
  | [], k, v => [(k, v)]
  | (k0, v0) :: rest, k, v =>
      if k0 = k then (k, v) :: rest else (k0, v0) :: upsert rest k v

/-- Python `d.get(k)`. -/
def findRow : Assoc κ ρ → κ → Option ρ
  | [], _ => none
  | (k0, v0) :: rest, k => if k0 = k then some v0 else findRow rest k

theorem findRow_upsert_self (l : Assoc κ ρ) (k : κ) (v : ρ) :
    findRow (upsert l k v) k = some v := by
  induction l with
  | nil => simp [upsert, findRow]
  | cons p rest ih =>
      obtain ⟨k0, v0⟩ := p
      by_cases h : k0 = k
      · simp [upsert, findRow, h]
      · simp [upsert, findRow, h, ih]

theorem findRow_upsert_ne (l : Assoc κ ρ) (k k' : κ) (v : ρ) (h : k' ≠ k) :
    findRow (upsert l k v) k' = findRow l k' := by
  induction l with
  | nil => simp [upsert, findRow, Ne.symm h]
  | cons p rest ih =>
      obtain ⟨k0, v0⟩ := p
      by_cases h0 : k0 = k
      · subst h0
        simp [upsert, findRow, Ne.symm h]
      · by_cases h1 : k0 = k'
        · subst h1
          simp [upsert, findRow, h0]
        · simp [upsert, findRow, h0, h1, ih]

theorem upsert_findRow_self (l : Assoc κ ρ) (k : κ) (v : ρ)
    (h : findRow l k = some v) : upsert l k v = l := by
  induction l with
  | nil => simp [findRow] at h
  | cons p rest ih =>
      obtain ⟨k0, v0⟩ := p
      by_cases h0 : k0 = k
      · subst h0
        simp [findRow] at h
        simp [upsert, h]
      · simp [findRow, h0] at h
        simp [upsert, h0, ih h]

theorem mem_upsert (l : Assoc κ ρ) (k : κ) (v : ρ) (p : κ × ρ)
    (h : p ∈ upsert l k v) : p ∈ l ∨ p = (k, v) := by
  induction l with
  | nil => simpa [upsert] using h
  | cons q rest ih =>
      obtain ⟨k0, v0⟩ := q
      by_cases h0 : k0 = k
      · simp [upsert, h0] at h
        rcases h with h | h
        · right; simpa using h
        · left; simp [h]
      · simp [upsert, h0] at h
        rcases h with h | h
        · left; simp [h]
        · rcases ih h with h' | h'
          · left; simp [h']
          · right; exact h'

theorem mem_keys_upsert (l : Assoc κ ρ) (k : κ) (v : ρ) (k' : κ) :
    k' ∈ (upsert l k v).map Prod.fst ↔ k' = k ∨ k' ∈ l.map Prod.fst := by
  induction l with
  | nil => simp [upsert]
  | cons q rest ih =>
      obtain ⟨k0, v0⟩ := q
      by_cases h0 : k0 = k
      · subst h0
        simp [upsert]
      · simp [upsert, h0, ih]
        tauto

theorem nodup_keys_upsert (l : Assoc κ ρ) (k : κ) (v : ρ)
    (h : (l.map Prod.fst).Nodup) : ((upsert l k v).map Prod.fst).Nodup := by
  induction l with
  | nil => simp [upsert]
  | cons q rest ih =>
      obtain ⟨k0, v0⟩ := q
      simp only [List.map_cons, List.nodup_cons] at h
      by_cases h0 : k0 = k
      · subst h0
        simpa [upsert] using h
      · simp only [upsert, h0, if_false, List.map_cons, List.nodup_cons]
        refine ⟨?_, ih h.2⟩
        intro hk0
        rcases (mem_keys_upsert rest k v k0).1 hk0 with h' | h'
        · exact h0 h'
        · exact h.1 h'

theorem findRow_of_mem_nodup (l : Assoc κ ρ) (k : κ) (v : ρ)
    (hnd : (l.map Prod.fst).Nodup) (h : (k, v) ∈ l) : findRow l k = some v := by
  induction l with
  | nil => simp at h
  | cons q rest ih =>
      obtain ⟨k0, v0⟩ := q
      simp only [List.map_cons, List.nodup_cons] at hnd
      rcases List.mem_cons.1 h with h' | h'
      · rw [Prod.ext_iff] at h'
        obtain ⟨h1, h2⟩ := h'
        simp only [] at h1 h2
        simp [findRow, ← h1, h2]
      · have hk : k0 ≠ k := by
          intro he
          subst he
          exact hnd.1 (List.mem_map_of_mem Prod.fst h')
        simp [findRow, hk, ih hnd.2 h']

theorem mem_snd_of_findRow (l : Assoc κ ρ) (k : κ) (v : ρ)
    (h : findRow l k = some v) : v ∈ l.map Prod.snd := by
  induction l with
  | nil => simp [findRow] at h
  | cons q rest ih =>
      obtain ⟨k0, v0⟩ := q
      by_cases h0 : k0 = k
      · simp [findRow, h0] at h
        simp [h]
      · simp [findRow, h0] at h
        simp [ih h]

theorem mem_of_findRow (l : Assoc κ ρ) (k : κ) (v : ρ)
    (h : findRow l k = some v) : (k, v) ∈ l := by
  induction l with
  | nil => simp [findRow] at h
  | cons q rest ih =>
      obtain ⟨k0, v0⟩ := q
      by_cases h0 : k0 = k
      · simp [findRow, h0] at h
        simp [h0, h]
      · simp [findRow, h0] at h
        simp [ih h]

theorem findRow_eq_none (l : Assoc κ ρ) (k : κ) :
    findRow l k = none ↔ k ∉ l.map Prod.fst := by
  induction l with
  | nil => simp [findRow]
  | cons q rest ih =>
      obtain ⟨k0, v0⟩ := q
      by_cases h0 : k0 = k
      · simp [findRow, h0]
      · simp [findRow, h0, ih, Ne.symm h0]

/-! ## Merge key, conflict resolution, enrichment, merge engine

Embedded from `src/ingestion/manifests.py`. -/

/-- Merge key type: `(source, discriminator)`. -/
abbrev MergeKey := Source × String

/-- Embeds `_get_merge_key`: `(source, pdf_url)` when `pdf_url` is truthy,
else `(source, incident_id)`. -/
def get_merge_key (row : IncidentManifestRow) : MergeKey :=
  if strTruthy row.pdf_url then (row.source, row.pdf_url)
  else (row.source, row.incident_id)

/-- Shared shape of priority rules 2 and 4 of `_compare_rows`: when both
values are present the larger wins, a present value beats an absent one,
and equal or both-absent falls through (`none`). -/
def optCmp (a b : Option Int) : Option Int :=
  match a, b with
  | some x, some y =>
      if x > y then some (-1) else if y > x then some 1 else none
  | some _, none => some (-1)
  | none, some _ => some 1
  | none, none => none

/-- Embeds `_compare_rows`: `-1` if `a` wins, `1` if `b` wins, `0` on tie.
Rule 1 compares `downloaded`; rule 2 chronological `retrieved_at` (via
`instantMicros`); rule 3 truthy `sha256` presence; rule 4
`file_size_bytes`; rule 5 tie. -/
def compare_rows (a b : IncidentManifestRow) : Int :=
  if a.downloaded && !b.downloaded then -1
  else if b.downloaded && !a.downloaded then 1
  else
    match optCmp (a.retrieved_at.map DateTime.instantMicros)
        (b.retrieved_at.map DateTime.instantMicros) with
    | some r => r
    | none =>
        if optStrTruthy a.sha256 && !optStrTruthy b.sha256 then -1
        else if optStrTruthy b.sha256 && !optStrTruthy a.sha256 then 1
        else
          match optCmp a.file_size_bytes b.file_size_bytes with
          | some r => r
          | none => 0

/-- Enrichment of one falsy descriptive `str` field from the loser
(`if not winner.f and loser.f: updates[f] = loser.f`). -/
def fillStr (w l : String) : String :=
  if !strTruthy w && strTruthy l then l else w

/-- Enrichment of one falsy descriptive `Optional[str]` field. -/
def fillOptStr (w l : Option String) : Option String :=
  if !optStrTruthy w && optStrTruthy l then l else w

/-- Embeds `_enrich_winner`: fills the falsy descriptive fields `title`,
`date_occurred`, `date_report_released`, `detail_url`, `pdf_path` of the
winner from the loser; all other fields stay the winner's. -/
def enrich_winner (winner loser : IncidentManifestRow) : IncidentManifestRow :=
  { winner with
    title := fillStr winner.title loser.title
    date_occurred := fillOptStr winner.date_occurred loser.date_occurred
    date_report_released :=
      fillOptStr winner.date_report_released loser.date_report_released
    detail_url := fillStr winner.detail_url loser.detail_url
    pdf_path := fillStr winner.pdf_path loser.pdf_path }

/-- Index type of the merge engine's `by_key` dict. -/
abbrev MergeIndex := Assoc MergeKey IncidentManifestRow

/-- First loop of `merge_incident_manifests`: index `existing` by merge
key (a later duplicate key overwrites the value in place). -/
def indexExisting (existing : List IncidentManifestRow) : MergeIndex :=
  existing.foldl (fun idx row => upsert idx (get_merge_key row) row) []

/-- Body of the second loop of `merge_incident_manifests` for one
incoming row. -/
def mergeStep (idx : MergeIndex) (row : IncidentManifestRow) : MergeIndex :=
  let key := get_merge_key row
  match findRow idx key with
  | some existing_row =>
      if compare_rows existing_row row ≤ 0 then
        upsert idx key (enrich_winner existing_row row)
      else
        upsert idx key (enrich_winner row existing_row)
  | none => upsert idx key row

/-- Embeds `merge_incident_manifests` (`list(by_key.values())`). -/
def merge_incident_manifests (existing new : List IncidentManifestRow) :
    List IncidentManifestRow :=
  ((new.foldl mergeStep (indexExisting existing)).map Prod.snd)

/-! ## State signature and ranking of the conflict resolver

`compare_rows` only looks at the four state features below; the enrichment
never changes them.  Ranking the signature in a lexicographic linear order
turns the priority chain into order comparisons. -/

/-- The four features inspected by the conflict resolver. -/
structure StateSig where
  downloadedF : Bool
  instantF : Option Int
  shaPresentF : Bool
  sizeF : Option Int
  deriving DecidableEq, Repr

/-- State signature of a row. -/
def stateSig (r : IncidentManifestRow) : StateSig :=
  { downloadedF := r.downloaded
    instantF := r.retrieved_at.map DateTime.instantMicros
    shaPresentF := optStrTruthy r.sha256
    sizeF := r.file_size_bytes }

/-- Rank of an optional integer feature: absent is below every value. -/
def optRank (a : Option Int) : WithBot Int :=
  match a with
  | none => ⊥
  | some x => (x : WithBot Int)

/-- Rank of a boolean feature. -/
def boolRank (b : Bool) : Int :=
  if b then 1 else 0

/-- Lexicographic rank of a state signature; higher rank wins the
conflict resolution. -/
def sigRank (s : StateSig) : Lex (Int × Lex (WithBot Int × Lex (Int × WithBot Int))) :=
  toLex (boolRank s.downloadedF,
    toLex (optRank s.instantF, toLex (boolRank s.shaPresentF, optRank s.sizeF)))

/-- Shape of priority rules 1 and 3 as an optional decision. -/
def boolCmp (a b : Bool) : Option Int :=
  if a && !b then some (-1) else if b && !a then some 1 else none

/-- One link of the priority chain: a decided rule short-circuits, a tie
falls through to the rest of the chain. -/
def chainInt (c : Option Int) (r : Int) : Int :=
  match c with
  | some v => v
  | none => r

/-- The comparator on the underlying state signatures, as a uniform chain
of the four rules. -/
def cmpSig (a b : StateSig) : Int :=
  chainInt (boolCmp a.downloadedF b.downloadedF)
    (chainInt (optCmp a.instantF b.instantF)
      (chainInt (boolCmp a.shaPresentF b.shaPresentF)
        (chainInt (optCmp a.sizeF b.sizeF) 0)))

theorem compare_rows_eq_cmpSig (a b : IncidentManifestRow) :
    compare_rows a b = cmpSig (stateSig a) (stateSig b) := by
  unfold compare_rows cmpSig chainInt boolCmp stateSig
  cases a.downloaded <;> cases b.downloaded <;>
    cases optStrTruthy a.sha256 <;> cases optStrTruthy b.sha256 <;> simp

theorem boolCmp_neg_iff (a b : Bool) :
    (boolCmp a b = some (-1)) ↔ boolRank b < boolRank a := by
  cases a <;> cases b <;> simp [boolCmp, boolRank]

theorem boolCmp_pos_iff (a b : Bool) :
    (boolCmp a b = some 1) ↔ boolRank a < boolRank b := by
  cases a <;> cases b <;> simp [boolCmp, boolRank]

theorem boolCmp_none_iff (a b : Bool) :
    (boolCmp a b = none) ↔ boolRank a = boolRank b := by
  cases a <;> cases b <;> simp [boolCmp, boolRank]

theorem boolCmp_vals (a b : Bool) :
    ∀ v, boolCmp a b = some v → v = -1 ∨ v = 1 := by
  cases a <;> cases b <;> simp [boolCmp]

theorem optCmp_neg_iff (x y : Option Int) :
    (optCmp x y = some (-1)) ↔ optRank y < optRank x := by
  rcases x with _ | a <;> rcases y with _ | b
  · simp [optCmp, optRank]
  · simp [optCmp, optRank]
  · simp [optCmp, optRank, WithBot.bot_lt_coe]
  · simp only [optCmp, optRank, WithBot.coe_lt_coe]
    split_ifs with h1 h2 <;> simp <;> omega

theorem optCmp_pos_iff (x y : Option Int) :
    (optCmp x y = some 1) ↔ optRank x < optRank y := by
  rcases x with _ | a <;> rcases y with _ | b
  · simp [optCmp, optRank]
  · simp [optCmp, optRank, WithBot.bot_lt_coe]
  · simp [optCmp, optRank]
  · simp only [optCmp, optRank, WithBot.coe_lt_coe]
    split_ifs with h1 h2 <;> simp <;> omega

theorem optCmp_none_iff (x y : Option Int) :
    (optCmp x y = none) ↔ optRank x = optRank y := by
  rcases x with _ | a <;> rcases y with _ | b
  · simp [optCmp, optRank]
  · simp [optCmp, optRank]
  · simp [optCmp, optRank]
  · simp only [optCmp, optRank, WithBot.coe_eq_coe]
    split_ifs with h1 h2 <;> simp <;> omega

theorem optCmp_vals (x y : Option Int) :
    ∀ v, optCmp x y = some v → v = -1 ∨ v = 1 := by
  intro v h
  rcases x with _ | a <;> rcases y with _ | b <;> simp [optCmp] at h
  · omega
  · omega
  · split_ifs at h <;> simp at h <;> omega

/-- One link of the priority chain, lowered to a lexicographic order
comparison: the chain decides `≤ 0` exactly when the ranked pair of `b`
is below the ranked pair of `a`. -/
theorem chain_le_iff {α β : Type} [LinearOrder α] [LinearOrder β]
    (c : Option Int) (r : Int) (p q : α) (tp tq : β)
    (hneg : c = some (-1) ↔ q < p) (hpos : c = some 1 ↔ p < q)
    (hnone : c = none ↔ p = q) (hv : ∀ v, c = some v → v = -1 ∨ v = 1)
    (hr : r ≤ 0 ↔ tq ≤ tp) :
    chainInt c r ≤ 0 ↔ toLex (q, tq) ≤ toLex (p, tp) := by
  unfold chainInt
  rcases hc : c with _ | v
  · have hpq : p = q := hnone.1 hc
    subst hpq
    simp only [Prod.Lex.le_iff]
    simp [hr, lt_irrefl]
  · rcases hv v hc with hv1 | hv1 <;> subst hv1
    · have hqp : q < p := hneg.1 hc
      simp only [Prod.Lex.le_iff]
      simp [hqp]
    · have hpq : p < q := hpos.1 hc
      simp only [Prod.Lex.le_iff]
      constructor
      · intro h
        omega
      · intro h
        rcases h with h | ⟨h1, _⟩
        · exact absurd hpq (not_lt_of_gt h)
        · exact absurd hpq (by simp [h1])

/-- Innermost link of the chain (tie defaults to `0`). -/
theorem chain_le_base_iff {α : Type} [LinearOrder α]
    (c : Option Int) (p q : α)
    (hneg : c = some (-1) ↔ q < p) (hpos : c = some 1 ↔ p < q)
    (hnone : c = none ↔ p = q) (hv : ∀ v, c = some v → v = -1 ∨ v = 1) :
    chainInt c 0 ≤ 0 ↔ q ≤ p := by
  unfold chainInt
  rcases hc : c with _ | v
  · have hpq : p = q := hnone.1 hc
    simp [hpq]
  · rcases hv v hc with hv1 | hv1 <;> subst hv1
    · have hqp : q < p := hneg.1 hc
      simp [le_of_lt hqp]
    · have hpq : p < q := hpos.1 hc
      simp [not_le_of_gt hpq]

/-- The conflict resolver decides "a wins or tie" exactly when `b`'s state
rank does not exceed `a`'s. -/
theorem cmpSig_le_zero_iff (a b : StateSig) :
    cmpSig a b ≤ 0 ↔ sigRank b ≤ sigRank a := by
  unfold cmpSig sigRank
  refine (chain_le_iff _ _ _ _ _ _ (boolCmp_neg_iff _ _) (boolCmp_pos_iff _ _)
    (boolCmp_none_iff _ _) (boolCmp_vals _ _) ?_)
  refine (chain_le_iff _ _ _ _ _ _ (optCmp_neg_iff _ _) (optCmp_pos_iff _ _)
    (optCmp_none_iff _ _) (optCmp_vals _ _) ?_)
  refine (chain_le_iff _ _ _ _ _ _ (boolCmp_neg_iff _ _) (boolCmp_pos_iff _ _)
    (boolCmp_none_iff _ _) (boolCmp_vals _ _) ?_)
  exact (chain_le_base_iff _ _ _ (optCmp_neg_iff _ _) (optCmp_pos_iff _ _)
    (optCmp_none_iff _ _) (optCmp_vals _ _))

/-- Complement form: `b` strictly wins exactly when its rank is higher. -/
theorem cmpSig_pos_iff (a b : StateSig) :
    0 < cmpSig a b ↔ sigRank a < sigRank b := by
  have h := cmpSig_le_zero_iff a b
  constructor
  · intro hpos
    by_contra hnot
    have hle : sigRank b ≤ sigRank a := not_lt.1 hnot
    have := h.2 hle
    omega
  · intro hlt
    by_contra hnp
    have hle : cmpSig a b ≤ 0 := by omega
    exact absurd (h.1 hle) (not_le.2 hlt)

theorem cmpSig_self (s : StateSig) : cmpSig s s = 0 := by
  have h1 : boolCmp s.downloadedF s.downloadedF = none := by
    cases s.downloadedF <;> simp [boolCmp]
  have h2 : optCmp s.instantF s.instantF = none := by
    rcases s.instantF with _ | a <;> simp [optCmp]
  have h3 : boolCmp s.shaPresentF s.shaPresentF = none := by
    cases s.shaPresentF <;> simp [boolCmp]
  have h4 : optCmp s.sizeF s.sizeF = none := by
    rcases s.sizeF with _ | a <;> simp [optCmp]
  simp [cmpSig, chainInt, h1, h2, h3, h4]

/-! ## Enrichment lemmas -/

theorem strTruthy_fillStr (w l : String) :
    strTruthy (fillStr w l) = (strTruthy w || strTruthy l) := by
  cases hw : strTruthy w <;> cases hl : strTruthy l <;>
    simp [fillStr, hw, hl]

theorem optStrTruthy_fillOptStr (w l : Option String) :
    optStrTruthy (fillOptStr w l) = (optStrTruthy w || optStrTruthy l) := by
  cases hw : optStrTruthy w <;> cases hl : optStrTruthy l <;>
    simp [fillOptStr, hw, hl]

/-- The state signature (everything the conflict resolver inspects) is
untouched by enrichment. -/
theorem stateSig_enrich (w l : IncidentManifestRow) :
    stateSig (enrich_winner w l) = stateSig w := rfl

/-- The merge key is untouched by enrichment: `source`, `incident_id` and
`pdf_url` are not descriptive fields. -/
theorem get_merge_key_enrich (w l : IncidentManifestRow) :
    get_merge_key (enrich_winner w l) = get_merge_key w := rfl

/-- Row `v` absorbs row `b` when every descriptive field that is falsy in
`v` is falsy in `b` as well (so enriching `v` from `b` is a no-op). -/
def absorbs (v b : IncidentManifestRow) : Prop :=
  (strTruthy v.title = false → strTruthy b.title = false) ∧
  (optStrTruthy v.date_occurred = false → optStrTruthy b.date_occurred = false) ∧
  (optStrTruthy v.date_report_released = false →
    optStrTruthy b.date_report_released = false) ∧
  (strTruthy v.detail_url = false → strTruthy b.detail_url = false) ∧
  (strTruthy v.pdf_path = false → strTruthy b.pdf_path = false)

theorem absorbs_refl (r : IncidentManifestRow) : absorbs r r := by
  refine ⟨?_, ?_, ?_, ?_, ?_⟩ <;> exact fun h => h

theorem fillStr_eq_of_absorbed (w l : String)
    (h : strTruthy w = false → strTruthy l = false) : fillStr w l = w := by
  cases hw : strTruthy w
  · simp [fillStr, hw, h hw]
  · simp [fillStr, hw]

theorem fillOptStr_eq_of_absorbed (w l : Option String)
    (h : optStrTruthy w = false → optStrTruthy l = false) :
    fillOptStr w l = w := by
  cases hw : optStrTruthy w
  · simp [fillOptStr, hw, h hw]
  · simp [fillOptStr, hw]

/-- Enrichment is a no-op when the winner absorbs the loser. -/
theorem enrich_eq_self_of_absorbs (w l : IncidentManifestRow)
    (h : absorbs w l) : enrich_winner w l = w := by
  obtain ⟨h1, h2, h3, h4, h5⟩ := h
  simp [enrich_winner, fillStr_eq_of_absorbed _ _ h1,
    fillOptStr_eq_of_absorbed _ _ h2, fillOptStr_eq_of_absorbed _ _ h3,
    fillStr_eq_of_absorbed _ _ h4, fillStr_eq_of_absorbed _ _ h5]

/-- The enriched winner absorbs both inputs. -/
theorem absorbs_enrich (w l : IncidentManifestRow) :
    absorbs (enrich_winner w l) w ∧ absorbs (enrich_winner w l) l := by
  constructor <;>
    refine ⟨?_, ?_, ?_, ?_, ?_⟩ <;>
    simp only [enrich_winner, strTruthy_fillStr, optStrTruthy_fillOptStr] <;>
    intro h <;>
    simp_all

/-- Absorption transfers along enrichment: if the winner absorbs `b`, so
does the enriched winner. -/
theorem absorbs_enrich_of_absorbs (w l b : IncidentManifestRow)
    (h : absorbs w b) : absorbs (enrich_winner w l) b := by
  obtain ⟨h1, h2, h3, h4, h5⟩ := h
  refine ⟨?_, ?_, ?_, ?_, ?_⟩ <;>
    simp only [enrich_winner, strTruthy_fillStr, optStrTruthy_fillOptStr] <;>
    intro h <;>
    simp_all

/-! ## Well-formedness of the merge index -/

/-- Invariant of the `by_key` dict: keys are unique and every stored row
has the key it is stored under. -/
def WFIdx (idx : MergeIndex) : Prop :=
  (idx.map Prod.fst).Nodup ∧ ∀ p ∈ idx, get_merge_key p.2 = p.1

theorem WFIdx_nil : WFIdx ([] : MergeIndex) := by
  constructor
  · simp
  · intro p hp
    simp at hp

theorem WFIdx_upsert (idx : MergeIndex) (v : IncidentManifestRow)
    (h : WFIdx idx) : WFIdx (upsert idx (get_merge_key v) v) := by
  obtain ⟨hnd, hkey⟩ := h
  constructor
  · exact nodup_keys_upsert idx _ v hnd
  · intro p hp
    rcases mem_upsert idx _ v p hp with h' | h'
    · exact hkey p h'
    · subst h'
      rfl

theorem WFIdx_mergeStep (idx : MergeIndex) (row : IncidentManifestRow)
    (h : WFIdx idx) : WFIdx (mergeStep idx row) := by
  unfold mergeStep
  rcases hf : findRow idx (get_merge_key row) with _ | er
  · simp only [hf]
    exact WFIdx_upsert idx row h
  · simp only [hf]
    by_cases hc : compare_rows er row ≤ 0
    · simp only [hc, if_true]
      have hk : get_merge_key (enrich_winner er row) = get_merge_key row := by
        rw [get_merge_key_enrich]
        exact (h.2 _ (mem_of_findRow idx _ er hf))
      rw [← hk]
      exact WFIdx_upsert idx _ h
    · simp only [hc, if_false]
      have hk : get_merge_key (enrich_winner row er) = get_merge_key row := by
        rw [get_merge_key_enrich]
      rw [← hk]
      exact WFIdx_upsert idx _ h

theorem WFIdx_indexExisting (existing : List IncidentManifestRow) :
    WFIdx (indexExisting existing) := by
  unfold indexExisting
  suffices h : ∀ idx : MergeIndex, WFIdx idx →
      WFIdx (existing.foldl (fun idx row => upsert idx (get_merge_key row) row) idx) by
    exact h [] WFIdx_nil
  induction existing with
  | nil => intro idx h; exact h
  | cons r rest ih =>
      intro idx h
      exact ih _ (WFIdx_upsert idx r h)

theorem WFIdx_fold_mergeStep (rows : List IncidentManifestRow)
    (idx : MergeIndex) (h : WFIdx idx) : WFIdx (rows.foldl mergeStep idx) := by
  induction rows generalizing idx with
  | nil => exact h
  | cons r rest ih => exact ih _ (WFIdx_mergeStep idx r h)

theorem absorbs_trans (x y z : IncidentManifestRow)
    (h1 : absorbs x y) (h2 : absorbs y z) : absorbs x z := by
  obtain ⟨a1, a2, a3, a4, a5⟩ := h1
  obtain ⟨b1, b2, b3, b4, b5⟩ := h2
  exact ⟨fun h => b1 (a1 h), fun h => b2 (a2 h), fun h => b3 (a3 h),
    fun h => b4 (a4 h), fun h => b5 (a5 h)⟩

/-- Every branch of `mergeStep` writes at the incoming row's key, so other
keys are untouched. -/
theorem findRow_mergeStep_ne (idx : MergeIndex) (row : IncidentManifestRow)
    (k : MergeKey) (h : k ≠ get_merge_key row) :
    findRow (mergeStep idx row) k = findRow idx k := by
  unfold mergeStep
  rcases hf : findRow idx (get_merge_key row) with _ | er
  · simp only [hf]
    exact findRow_upsert_ne idx _ k row h
  · simp only [hf]
    by_cases hc : compare_rows er row ≤ 0 <;> simp only [hc, if_true, if_false] <;>
      exact findRow_upsert_ne idx _ k _ h

/-- The index entry at `b`'s key exists, outranks `b` and absorbs `b`. -/
def covers (idx : MergeIndex) (b : IncidentManifestRow) : Prop :=
  ∃ v, findRow idx (get_merge_key b) = some v ∧
    sigRank (stateSig b) ≤ sigRank (stateSig v) ∧ absorbs v b

theorem covers_mergeStep_of_covers (idx : MergeIndex)
    (r b : IncidentManifestRow) (h : covers idx b) :
    covers (mergeStep idx r) b := by
  obtain ⟨v, hf, hle, habs⟩ := h
  by_cases hk : get_merge_key b = get_merge_key r
  · have hf' : findRow idx (get_merge_key r) = some v := by
      rw [← hk]
      exact hf
    unfold mergeStep
    simp only [hf']
    by_cases hc : compare_rows v r ≤ 0
    · simp only [hc, if_true]
      refine ⟨enrich_winner v r, ?_, ?_, ?_⟩
      · rw [hk]
        exact findRow_upsert_self idx _ _
      · rw [stateSig_enrich]
        exact hle
      · exact absorbs_enrich_of_absorbs v r b habs
    · simp only [hc, if_false]
      refine ⟨enrich_winner r v, ?_, ?_, ?_⟩
      · rw [hk]
        exact findRow_upsert_self idx _ _
      · rw [stateSig_enrich]
        have hpos : 0 < compare_rows v r := by omega
        rw [compare_rows_eq_cmpSig] at hpos
        have hlt := (cmpSig_pos_iff (stateSig v) (stateSig r)).1 hpos
        exact le_trans hle (le_of_lt hlt)
      · exact absorbs_trans _ _ _ ((absorbs_enrich r v).2) habs
  · refine ⟨v, ?_, hle, habs⟩
    rw [findRow_mergeStep_ne idx r _ hk]
    exact hf

theorem covers_mergeStep_self (idx : MergeIndex) (b : IncidentManifestRow) :
    covers (mergeStep idx b) b := by
  unfold mergeStep
  rcases hf : findRow idx (get_merge_key b) with _ | er
  · simp only [hf]
    exact ⟨b, findRow_upsert_self idx _ b, le_refl _, absorbs_refl b⟩
  · simp only [hf]
    by_cases hc : compare_rows er b ≤ 0
    · simp only [hc, if_true]
      refine ⟨enrich_winner er b, findRow_upsert_self idx _ _, ?_, ?_⟩
      · rw [stateSig_enrich]
        rw [compare_rows_eq_cmpSig] at hc
        exact (cmpSig_le_zero_iff (stateSig er) (stateSig b)).1 hc
      · exact (absorbs_enrich er b).2
    · simp only [hc, if_false]
      refine ⟨enrich_winner b er, findRow_upsert_self idx _ _, ?_, ?_⟩
      · rw [stateSig_enrich]
      · exact (absorbs_enrich b er).1

theorem covers_foldl (l : List IncidentManifestRow) (idx : MergeIndex)
    (b : IncidentManifestRow) (h : covers idx b) :
    covers (l.foldl mergeStep idx) b := by
  induction l generalizing idx with
  | nil => exact h
  | cons r rest ih => exact ih _ (covers_mergeStep_of_covers idx r b h)

theorem covers_foldl_mem (l : List IncidentManifestRow) (idx : MergeIndex) :
    ∀ b ∈ l, covers (l.foldl mergeStep idx) b := by
  induction l generalizing idx with
  | nil => intro b hb; simp at hb
  | cons r rest ih =>
      intro b hb
      rcases List.mem_cons.1 hb with hb | hb
      · subst hb
        exact covers_foldl rest _ b (covers_mergeStep_self idx b)
      · exact ih _ b hb

/-- A covered incoming row leaves the index unchanged. -/
theorem mergeStep_eq_of_covers (idx : MergeIndex) (b : IncidentManifestRow)
    (h : covers idx b) : mergeStep idx b = idx := by
  obtain ⟨v, hf, hle, habs⟩ := h
  unfold mergeStep
  simp only [hf]
  have hc : compare_rows v b ≤ 0 := by
    rw [compare_rows_eq_cmpSig]
    exact (cmpSig_le_zero_iff (stateSig v) (stateSig b)).2 hle
  simp only [hc, if_true]
  rw [enrich_eq_self_of_absorbs v b habs]
  exact upsert_findRow_self idx _ v hf

theorem foldl_mergeStep_eq_of_covers (l : List IncidentManifestRow)
    (idx : MergeIndex) (h : ∀ b ∈ l, covers idx b) :
    l.foldl mergeStep idx = idx := by
  induction l with
  | nil => rfl
  | cons r rest ih =>
      have h1 : mergeStep idx r = idx := mergeStep_eq_of_covers idx r (h r (by simp))
      simp only [List.foldl_cons, h1]
      exact ih (fun b hb => h b (List.mem_cons_of_mem r hb))

/-! ## Monotone progress fold (for the monotonicity claim) -/

theorem compare_rows_downloaded (a b : IncidentManifestRow)
    (ha : a.downloaded = true) (hb : b.downloaded = false) :
    compare_rows a b = -1 := by
  simp [compare_rows, ha, hb]

theorem monotone_fold (inc : List IncidentManifestRow) (k : MergeKey)
    (h : Option String) :
    ∀ idx : MergeIndex,
      (∀ r ∈ inc, get_merge_key r = k → r.downloaded = false) →
      (∃ m, findRow idx k = some m ∧ m.downloaded = true ∧ m.sha256 = h) →
      ∃ m, findRow (inc.foldl mergeStep idx) k = some m ∧
        m.downloaded = true ∧ m.sha256 = h := by
  induction inc with
  | nil =>
      intro idx _ hidx
      exact hidx
  | cons r rest ih =>
      intro idx hinc hidx
      obtain ⟨m, hf, hdl, hsha⟩ := hidx
      simp only [List.foldl_cons]
      refine ih (mergeStep idx r)
        (fun r' hr' hk' => hinc r' (List.mem_cons_of_mem r hr') hk') ?_
      by_cases hk : k = get_merge_key r
      · have hrdl : r.downloaded = false := hinc r (by simp) hk.symm
        have hf' : findRow idx (get_merge_key r) = some m := by
          rw [← hk]
          exact hf
        unfold mergeStep
        simp only [hf']
        have hc : compare_rows m r ≤ 0 := by
          rw [compare_rows_downloaded m r hdl hrdl]
          omega
        simp only [hc, if_true]
        refine ⟨enrich_winner m r, ?_, hdl, hsha⟩
        rw [hk]
        exact findRow_upsert_self idx _ _
      · rw [findRow_mergeStep_ne idx r k hk]
        exact ⟨m, hf, hdl, hsha⟩

/-! ## Shape of the index for duplicate-free inputs -/

theorem upsert_append_of_not_mem (l : Assoc κ ρ) (k : κ) (v : ρ)
    (h : k ∉ l.map Prod.fst) : upsert l k v = l ++ [(k, v)] := by
  induction l with
  | nil => simp [upsert]
  | cons q rest ih =>
      obtain ⟨k0, v0⟩ := q
      simp only [List.map_cons, List.mem_cons] at h
      push_neg at h
      simp [upsert, Ne.symm h.1, ih h.2]

theorem foldl_upsert_append (X : List IncidentManifestRow) :
    ∀ acc : MergeIndex,
      (X.map get_merge_key).Nodup →
      (∀ r ∈ X, get_merge_key r ∉ acc.map Prod.fst) →
      X.foldl (fun idx row => upsert idx (get_merge_key row) row) acc
        = acc ++ X.map (fun r => (get_merge_key r, r)) := by
  induction X with
  | nil =>
      intro acc _ _
      simp
  | cons r rest ih =>
      intro acc hnd hdisj
      simp only [List.map_cons, List.nodup_cons] at hnd
      simp only [List.foldl_cons]
      rw [upsert_append_of_not_mem acc _ r (hdisj r (by simp))]
      rw [ih (acc ++ [(get_merge_key r, r)]) hnd.2 ?_]
      · simp
      · intro r' hr'
        simp only [List.map_append, List.mem_append, List.map_cons, List.map_nil,
          List.mem_singleton, not_or]
        refine ⟨hdisj r' (by simp [hr']), ?_⟩
        intro hc
        exact hnd.1 (hc ▸ List.mem_map_of_mem get_merge_key hr')

theorem indexExisting_eq_of_nodup (X : List IncidentManifestRow)
    (h : (X.map get_merge_key).Nodup) :
    indexExisting X = X.map (fun r => (get_merge_key r, r)) := by
  unfold indexExisting
  rw [foldl_upsert_append X [] h (by simp)]
  simp

/-- Re-indexing the value list of a well-formed index reproduces it. -/
theorem indexExisting_map_snd (l : MergeIndex) (h : WFIdx l) :
    indexExisting (l.map Prod.snd) = l := by
  obtain ⟨hnd, hkey⟩ := h
  have hkeys : (l.map Prod.snd).map get_merge_key = l.map Prod.fst := by
    rw [List.map_map]
    exact List.map_congr_left (fun p hp => hkey p hp)
  rw [indexExisting_eq_of_nodup _ (hkeys ▸ hnd)]
  rw [List.map_map]
  have : ∀ p ∈ l, (fun r => (get_merge_key r, r)) (Prod.snd p) = p := by
    intro p hp
    simp [hkey p hp]
  calc l.map ((fun r => (get_merge_key r, r)) ∘ Prod.snd)
      = l.map id := List.map_congr_left (fun p hp => this p hp)
    _ = l := List.map_id l

/-! ## Key membership through the merge -/

theorem mem_keys_mergeStep (idx : MergeIndex) (r : IncidentManifestRow)
    (k : MergeKey) :
    k ∈ (mergeStep idx r).map Prod.fst ↔
      k = get_merge_key r ∨ k ∈ idx.map Prod.fst := by
  unfold mergeStep
  rcases hf : findRow idx (get_merge_key r) with _ | er
  · simp only [hf]
    exact mem_keys_upsert idx _ r k
  · simp only [hf]
    by_cases hc : compare_rows er r ≤ 0 <;> simp only [hc, if_true, if_false] <;>
      exact mem_keys_upsert idx _ _ k

theorem mem_keys_foldl_mergeStep (B : List IncidentManifestRow) :
    ∀ (idx : MergeIndex) (k : MergeKey),
      k ∈ (B.foldl mergeStep idx).map Prod.fst ↔
        (∃ r ∈ B, get_merge_key r = k) ∨ k ∈ idx.map Prod.fst := by
  induction B with
  | nil =>
      intro idx k
      simp
  | cons r rest ih =>
      intro idx k
      simp only [List.foldl_cons]
      rw [ih (mergeStep idx r) k, mem_keys_mergeStep idx r k]
      constructor
      · intro h
        rcases h with ⟨r', hr', hk⟩ | h | h
        · exact Or.inl ⟨r', by simp [hr'], hk⟩
        · exact Or.inl ⟨r, by simp, h.symm⟩
        · exact Or.inr h
      · intro h
        rcases h with ⟨r', hr', hk⟩ | h
        · rcases List.mem_cons.1 hr' with hr' | hr'
          · subst hr'
            exact Or.inr (Or.inl hk.symm)
          · exact Or.inl ⟨r', hr', hk⟩
        · exact Or.inr (Or.inr h)

theorem mem_keys_indexExisting (X : List IncidentManifestRow) (k : MergeKey) :
    k ∈ (indexExisting X).map Prod.fst ↔ ∃ r ∈ X, get_merge_key r = k := by
  unfold indexExisting
  suffices h : ∀ acc : MergeIndex,
      k ∈ (X.foldl (fun idx row => upsert idx (get_merge_key row) row) acc).map
          Prod.fst ↔
        (∃ r ∈ X, get_merge_key r = k) ∨ k ∈ acc.map Prod.fst by
    simpa using h []
  induction X with
  | nil =>
      intro acc
      simp
  | cons r rest ih =>
      intro acc
      simp only [List.foldl_cons]
      rw [ih (upsert acc (get_merge_key r) r), mem_keys_upsert acc _ r k]
      constructor
      · intro h
        rcases h with ⟨r', hr', hk⟩ | h | h
        · exact Or.inl ⟨r', by simp [hr'], hk⟩
        · exact Or.inl ⟨r, by simp, h.symm⟩
        · exact Or.inr h
      · intro h
        rcases h with ⟨r', hr', hk⟩ | h
        · rcases List.mem_cons.1 hr' with hr' | hr'
          · subst hr'
            exact Or.inr (Or.inl hk.symm)
          · exact Or.inl ⟨r', hr', hk⟩
        · exact Or.inr (Or.inr h)

/-- Merge keys of the output list coincide with the index's key list. -/
theorem output_keys_eq (idx : MergeIndex) (h : WFIdx idx) :
    (idx.map Prod.snd).map get_merge_key = idx.map Prod.fst := by
  rw [List.map_map]
  exact List.map_congr_left (fun p hp => h.2 p hp)

/-! ## Spec-side conflict resolver (for the refinement claim)

Modelled from the spec (§4.2): an ordering decision `{A_WINS, B_WINS,
TIE}` produced by a strict lexicographic priority chain of four total
comparators, first non-tie deciding.  "Present" for the content hash
follows the spec's empty-string-for-absent convention (§9): an absent or
empty hex string is absent. -/

/-- Ordering decision of the spec's conflict resolver contract. -/
inductive MergeDecision where
  | A_WINS
  | B_WINS
  | TIE
  deriving DecidableEq, Repr

/-- Spec rule 1: `downloaded=true` outranks `downloaded=false`. -/
def specRule1 (a b : IncidentManifestRow) : MergeDecision :=
  if a.downloaded && !b.downloaded then .A_WINS
  else if b.downloaded && !a.downloaded then .B_WINS
  else .TIE

/-- Spec rule 2: later `retrieved_at` outranks earlier; a record with a
timestamp outranks one without. -/
def specRule2 (a b : IncidentManifestRow) : MergeDecision :=
  match a.retrieved_at, b.retrieved_at with
  | some ta, some tb =>
      if tb.instantMicros < ta.instantMicros then .A_WINS
      else if ta.instantMicros < tb.instantMicros then .B_WINS
      else .TIE
  | some _, none => .A_WINS
  | none, some _ => .B_WINS
  | none, none => .TIE

/-- Spec rule 3: present `content_hash` outranks absent. -/
def specRule3 (a b : IncidentManifestRow) : MergeDecision :=
  if optStrTruthy a.sha256 && !optStrTruthy b.sha256 then .A_WINS
  else if optStrTruthy b.sha256 && !optStrTruthy a.sha256 then .B_WINS
  else .TIE

/-- Spec rule 4: larger `file_size_bytes` outranks smaller; present
outranks absent. -/
def specRule4 (a b : IncidentManifestRow) : MergeDecision :=
  match a.file_size_bytes, b.file_size_bytes with
  | some za, some zb =>
      if zb < za then .A_WINS
      else if za < zb then .B_WINS
      else .TIE
  | some _, none => .A_WINS
  | none, some _ => .B_WINS
  | none, none => .TIE

/-- First non-tie decides; ties fall through to the next rule. -/
def chainDecision (d next : MergeDecision) : MergeDecision :=
  match d with
  | .TIE => next
  | d => d

/-- Modelled from the spec (§4.2): the full priority chain; otherwise
TIE. -/
def specCompare (a b : IncidentManifestRow) : MergeDecision :=
  chainDecision (specRule1 a b)
    (chainDecision (specRule2 a b)
      (chainDecision (specRule3 a b) (specRule4 a b)))

/-- Decision denoted by an integer comparison result. -/
def toDecInt (z : Int) : MergeDecision :=
  if z < 0 then .A_WINS else if 0 < z then .B_WINS else .TIE

/-- Decision denoted by one optional chain link. -/
def toDecOpt (o : Option Int) : MergeDecision :=
  match o with
  | some v => if v < 0 then .A_WINS else .B_WINS
  | none => .TIE

theorem specRule1_eq (a b : IncidentManifestRow) :
    specRule1 a b = toDecOpt (boolCmp a.downloaded b.downloaded) := by
  cases ha : a.downloaded <;> cases hb : b.downloaded <;>
    simp [specRule1, boolCmp, toDecOpt, ha, hb]

theorem specRule2_eq (a b : IncidentManifestRow) :
    specRule2 a b = toDecOpt (optCmp (a.retrieved_at.map DateTime.instantMicros)
      (b.retrieved_at.map DateTime.instantMicros)) := by
  unfold specRule2
  rcases a.retrieved_at with _ | ta <;> rcases b.retrieved_at with _ | tb <;>
    simp only [Option.map_none', Option.map_some', optCmp, toDecOpt, gt_iff_lt]
  all_goals first
    | rfl
    | (split_ifs <;> simp)

theorem specRule3_eq (a b : IncidentManifestRow) :
    specRule3 a b = toDecOpt (boolCmp (optStrTruthy a.sha256) (optStrTruthy b.sha256)) := by
  cases ha : optStrTruthy a.sha256 <;> cases hb : optStrTruthy b.sha256 <;>
    simp [specRule3, boolCmp, toDecOpt, ha, hb]

theorem specRule4_eq (a b : IncidentManifestRow) :
    specRule4 a b = toDecOpt (optCmp a.file_size_bytes b.file_size_bytes) := by
  unfold specRule4
  rcases a.file_size_bytes with _ | za <;> rcases b.file_size_bytes with _ | zb <;>
    simp only [optCmp, toDecOpt, gt_iff_lt]
  all_goals first
    | rfl
    | (split_ifs <;> simp)

theorem chainDecision_toDec (c : Option Int) (r : Int)
    (hv : ∀ v, c = some v → v = -1 ∨ v = 1) :
    chainDecision (toDecOpt c) (toDecInt r) = toDecInt (chainInt c r) := by
  match hc : c with
  | none => rfl
  | some v =>
      rcases hv v rfl with h | h <;> subst h <;>
        simp [toDecOpt, chainDecision, toDecInt, chainInt]

theorem chainDecision_tie (d : MergeDecision) : chainDecision d .TIE = d := by
  cases d <;> rfl

/-- The spec's priority chain and the code's integer comparator agree. -/
theorem specCompare_eq_compare_rows (a b : IncidentManifestRow) :
    specCompare a b = toDecInt (compare_rows a b) := by
  have hd : ∀ r : IncidentManifestRow, (stateSig r).downloadedF = r.downloaded :=
    fun _ => rfl
  have hi : ∀ r : IncidentManifestRow,
      (stateSig r).instantF = r.retrieved_at.map DateTime.instantMicros :=
    fun _ => rfl
  have hs : ∀ r : IncidentManifestRow,
      (stateSig r).shaPresentF = optStrTruthy r.sha256 := fun _ => rfl
  have hz : ∀ r : IncidentManifestRow,
      (stateSig r).sizeF = r.file_size_bytes := fun _ => rfl
  rw [compare_rows_eq_cmpSig]
  unfold specCompare cmpSig
  rw [specRule1_eq, specRule2_eq, specRule3_eq, specRule4_eq]
  rw [hd, hd, hi, hi, hs, hs, hz, hz]
  rw [← chainDecision_toDec (boolCmp a.downloaded b.downloaded) _ (boolCmp_vals _ _)]
  rw [← chainDecision_toDec (optCmp (a.retrieved_at.map DateTime.instantMicros)
    (b.retrieved_at.map DateTime.instantMicros)) _ (optCmp_vals _ _)]
  rw [← chainDecision_toDec (boolCmp (optStrTruthy a.sha256) (optStrTruthy b.sha256))
    _ (boolCmp_vals _ _)]
  rw [← chainDecision_toDec (optCmp a.file_size_bytes b.file_size_bytes)
    0 (optCmp_vals _ _)]
  rw [show toDecInt 0 = MergeDecision.TIE from rfl]
  rw [chainDecision_tie]

/-! ## Persistence codec

Embeds `save_incident_manifest` / `load_incident_manifest` at the level
of CSV cell lists (the `csv` module's quoting transports each cell
verbatim; the fixed header row determines the column of each cell, in
field-declaration order).  `datetime.isoformat` /
`datetime.fromisoformat` are embedded character-exactly on the formats
`isoformat` emits. -/

/-- Character of a single decimal digit. -/
def digitChar (n : Nat) : Char :=
  Char.ofNat (48 + n)

/-- ASCII decimal digit test. -/
def isDigitChar (c : Char) : Bool :=
  48 ≤ c.toNat && c.toNat ≤ 57

/-- Fixed-width zero-padded decimal rendering (`%0kd`). -/
def padDigits : Nat → Nat → List Char
  | 0, _ => []
  | k + 1, n => padDigits k (n / 10) ++ [digitChar (n % 10)]

/-- Numeric value of a digit string. -/
def digitsVal (ds : List Char) : Nat :=
  ds.foldl (fun acc c => acc * 10 + (c.toNat - 48)) 0

/-- Unpadded decimal rendering of a natural (Python `str(n)`). -/
def natChars (n : Nat) : List Char :=
  if n < 10 then [digitChar n]
  else natChars (n / 10) ++ [digitChar (n % 10)]
termination_by n
decreasing_by
  exact Nat.div_lt_self (by omega) (by omega)

/-- Python `str(int)`: optional minus sign plus decimal digits. -/
def intChars (z : Int) : List Char :=
  if z < 0 then '-' :: natChars z.natAbs else natChars z.natAbs

/-- Python `int(str)` restricted to an optional minus sign plus decimal
digits (the shapes `str(int)` produces). -/
def parseNatChars (cs : List Char) : Option Nat :=
  if !cs.isEmpty && cs.all isDigitChar then some (digitsVal cs) else none

def parseIntStr (s : String) : Option Int :=
  match s.data with
  | [] => none
  | c :: rest =>
      if c = '-' then (parseNatChars rest).map (fun n => -(n : Int))
      else (parseNatChars (c :: rest)).map (fun n => (n : Int))

/-- UTC-offset suffix of `datetime.isoformat` (`±HH:MM`, empty when the
datetime is naive). -/
def tzChars : Option Int → List Char
  | none => []
  | some off =>
      (if off < 0 then '-' else '+') ::
        (padDigits 2 (off.natAbs / 60) ++ ':' :: padDigits 2 (off.natAbs % 60))

/-- Embeds `datetime.isoformat`: `YYYY-MM-DDTHH:MM:SS[.ffffff][±HH:MM]`;
the microsecond part is omitted when zero. -/
def DateTime.isoformat (d : DateTime) : String :=
  String.mk (padDigits 4 d.year ++ '-' :: padDigits 2 d.month
    ++ '-' :: padDigits 2 d.day ++ 'T' :: padDigits 2 d.hour
    ++ ':' :: padDigits 2 d.minute
    ++ ':' :: (padDigits 2 d.second
      ++ (if d.microsecond = 0 then tzChars d.tzOffsetMinutes
          else '.' :: (padDigits 6 d.microsecond
            ++ tzChars d.tzOffsetMinutes))))

/-- Read exactly `k` decimal digits. -/
def readFixed (k : Nat) (cs : List Char) : Option (Nat × List Char) :=
  if (cs.take k).length = k ∧ (cs.take k).all isDigitChar then
    some (digitsVal (cs.take k), cs.drop k)
  else none

/-- Consume one expected character. -/
def expectChar (c : Char) : List Char → Option (List Char)
  | [] => none
  | x :: rest => if x = c then some rest else none

/-- Optional `.ffffff` fraction. -/
def parseFrac : List Char → Option (Nat × List Char)
  | '.' :: rest =>
      match readFixed 6 rest with
      | some (micro, rest2) => some (micro, rest2)
      | none => none
  | cs => some (0, cs)

/-- Optional trailing `±HH:MM` offset; must consume the whole rest. -/
def parseTz : List Char → Option (Option Int)
  | [] => some none
  | c :: rest =>
      if c = '+' ∨ c = '-' then
        match readFixed 2 rest with
        | some (hh, rest2) =>
            match expectChar ':' rest2 with
            | some rest3 =>
                match readFixed 2 rest3 with
                | some (mm, rest4) =>
                    if rest4 = [] then
                      some (some (if c = '-' then -(((hh * 60 + mm : Nat)) : Int)
                        else (((hh * 60 + mm : Nat)) : Int)))
                    else none
                | none => none
            | none => none
        | none => none
      else none

/-- Embeds `datetime.fromisoformat` on the (positional) shapes that
`isoformat` emits. -/
def parseIso (s : String) : Option DateTime := do
  let (y, cs) ← readFixed 4 s.data
  let cs ← expectChar '-' cs
  let (mo, cs) ← readFixed 2 cs
  let cs ← expectChar '-' cs
  let (da, cs) ← readFixed 2 cs
  let cs ← expectChar 'T' cs
  let (hh, cs) ← readFixed 2 cs
  let cs ← expectChar ':' cs
  let (mi, cs) ← readFixed 2 cs
  let cs ← expectChar ':' cs
  let (ss, cs) ← readFixed 2 cs
  let (micro, cs) ← parseFrac cs
  let tz ← parseTz cs
  pure { year := y, month := mo, day := da, hour := hh, minute := mi,
         second := ss, microsecond := micro, tzOffsetMinutes := tz }

/-- ASCII lowering of one character (Python `str.lower` on the ASCII
strings this codec produces). -/
def charToLower (c : Char) : Char :=
  if 65 ≤ c.toNat && c.toNat ≤ 90 then Char.ofNat (c.toNat + 32) else c

def toLowerStr (s : String) : String :=
  String.mk (s.data.map charToLower)

/-- Python `str(bool)`. -/
def boolStr (b : Bool) : String :=
  if b then "True" else "False"

/-- Load-side boolean conversion: `value.lower() == "true"`. -/
def loadBoolStr (s : String) : Bool :=
  toLowerStr s == "true"

/-- A `None` optional renders as the empty cell. -/
def optCell : Option String → String
  | none => ""
  | some s => s

def intCell : Option Int → String
  | none => ""
  | some z => String.mk (intChars z)

def dtCell : Option DateTime → String
  | none => ""
  | some d => d.isoformat

def sourceStr : Source → String
  | .csb => "csb"
  | .bsee => "bsee"

/-- Pydantic `Literal["csb","bsee"]` validation on load. -/
def parseSource (s : String) : Option Source :=
  if s = "csb" then some Source.csb
  else if s = "bsee" then some Source.bsee
  else none

/-- Empty cell means `None` for optional string fields. -/
def loadOptStrCell (s : String) : Option String :=
  if s = "" then none else some s

/-- Empty cell means `None`; otherwise `int(value)` (failure raises). -/
def loadOptIntCell (s : String) : Option (Option Int) :=
  if s = "" then some none
  else
    match parseIntStr s with
    | some z => some (some z)
    | none => none

/-- Empty cell means `None`; otherwise `fromisoformat` (failure raises). -/
def loadDtCell (s : String) : Option (Option DateTime) :=
  if s = "" then some none
  else
    match parseIso s with
    | some d => some (some d)
    | none => none

/-- One CSV row written by `save_incident_manifest`, cells in
field-declaration order. -/
def saveRowCells (r : IncidentManifestRow) : List String :=
  [sourceStr r.source, r.incident_id, r.title, optCell r.date_occurred,
   optCell r.date_report_released, r.detail_url, r.pdf_url, r.pdf_path,
   boolStr r.downloaded, dtCell r.retrieved_at, intCell r.http_status,
   optCell r.content_type, intCell r.file_size_bytes, optCell r.sha256,
   optCell r.error]

/-- Embeds `save_incident_manifest` as the table of cell rows. -/
def save_incident_manifest (rows : List IncidentManifestRow) :
    List (List String) :=
  rows.map saveRowCells

/-- One CSV row read back by `load_incident_manifest`; `none` models the
exceptions pydantic/`int`/`fromisoformat` raise on malformed cells. -/
def loadRowCells : List String → Option IncidentManifestRow
  | [src, iid, title, docc, drel, durl, purl, ppath, dl, rat, hst, ct,
     fsz, sha, err] =>
      match parseSource src with
      | none => none
      | some s =>
          match loadDtCell rat with
          | none => none
          | some rat2 =>
              match loadOptIntCell hst with
              | none => none
              | some hst2 =>
                  match loadOptIntCell fsz with
                  | none => none
                  | some fsz2 =>
                      some { source := s, incident_id := iid, title := title,
                             date_occurred := loadOptStrCell docc,
                             date_report_released := loadOptStrCell drel,
                             detail_url := durl, pdf_url := purl,
                             pdf_path := ppath, downloaded := loadBoolStr dl,
                             retrieved_at := rat2, http_status := hst2,
                             content_type := loadOptStrCell ct,
                             file_size_bytes := fsz2,
                             sha256 := loadOptStrCell sha,
                             error := loadOptStrCell err }
  | _ => none

/-- Embeds `load_incident_manifest` over a saved table: rows are parsed
in order and any malformed row raises (`none`). -/
def load_incident_manifest : List (List String) →
    Option (List IncidentManifestRow)
  | [] => some []
  | row :: rest =>
      match loadRowCells row with
      | none => none
      | some r =>
          match load_incident_manifest rest with
          | none => none
          | some rs => some (r :: rs)

/-- Python `datetime` field validity plus whole-minute UTC offsets. -/
def wfDateTime (d : DateTime) : Bool :=
  (1 ≤ d.year && d.year ≤ 9999) && (1 ≤ d.month && d.month ≤ 12) &&
  (1 ≤ d.day && d.day ≤ 31) && (d.hour ≤ 23) && (d.minute ≤ 59) &&
  (d.second ≤ 59) && (d.microsecond ≤ 999999) &&
  (match d.tzOffsetMinutes with
   | none => true
   | some off => off.natAbs ≤ 1439)

def wfOptStr : Option String → Bool
  | none => true
  | some s => !s.isEmpty

/-- Rows the codec can round-trip: present optional strings are
non-empty (the empty-cell encoding conflates `""` with `None`) and
timestamps are valid datetimes. -/
def wfRow (r : IncidentManifestRow) : Bool :=
  wfOptStr r.date_occurred && wfOptStr r.date_report_released &&
  wfOptStr r.content_type && wfOptStr r.sha256 && wfOptStr r.error &&
  (match r.retrieved_at with
   | none => true
   | some d => wfDateTime d)

/-! ## Codec round-trip lemmas: digits and integers -/

theorem digitChar_toNat (d : Nat) (h : d < 10) :
    (digitChar d).toNat = 48 + d := by
  unfold digitChar
  interval_cases d <;> decide

theorem isDigitChar_digitChar (d : Nat) (h : d < 10) :
    isDigitChar (digitChar d) = true := by
  simp only [isDigitChar, digitChar_toNat d h, Bool.and_eq_true,
    decide_eq_true_eq]
  omega

theorem padDigits_length (k : Nat) : ∀ n, (padDigits k n).length = k := by
  induction k with
  | zero =>
      intro n
      rfl
  | succ k ih =>
      intro n
      simp [padDigits, ih]

theorem padDigits_all (k : Nat) :
    ∀ n, (padDigits k n).all isDigitChar = true := by
  induction k with
  | zero =>
      intro n
      rfl
  | succ k ih =>
      intro n
      simp [padDigits, List.all_append, ih,
        isDigitChar_digitChar _ (Nat.mod_lt n (by omega))]

theorem digitsVal_append (xs : List Char) (c : Char) :
    digitsVal (xs ++ [c]) = digitsVal xs * 10 + (c.toNat - 48) := by
  simp [digitsVal, List.foldl_append]

theorem digitsVal_padDigits (k : Nat) :
    ∀ n, n < 10 ^ k → digitsVal (padDigits k n) = n := by
  induction k with
  | zero =>
      intro n h
      simp only [pow_zero, Nat.lt_one_iff] at h
      simp [h, padDigits, digitsVal]
  | succ k ih =>
      intro n h
      have hd : n / 10 < 10 ^ k := by
        rw [pow_succ] at h
        omega
      rw [show padDigits (k + 1) n = padDigits k (n / 10) ++ [digitChar (n % 10)]
        from rfl]
      rw [digitsVal_append, ih _ hd, digitChar_toNat _ (Nat.mod_lt n (by omega))]
      omega

theorem readFixed_padDigits (k n : Nat) (h : n < 10 ^ k) :
    ∀ rest : List Char,
      readFixed k (padDigits k n ++ rest) = some (n, rest) := by
  intro rest
  have hlen : (padDigits k n).length = k := padDigits_length k n
  unfold readFixed
  rw [List.take_left' hlen, List.drop_left' hlen]
  rw [if_pos ⟨hlen, padDigits_all k n⟩, digitsVal_padDigits k n h]

theorem expectChar_cons (c : Char) : ∀ rest : List Char,
    expectChar c (c :: rest) = some rest := by
  intro rest
  simp [expectChar]

theorem natChars_ne_nil (n : Nat) : natChars n ≠ [] := by
  rw [natChars]
  split_ifs <;> simp

theorem natChars_all (n : Nat) : (natChars n).all isDigitChar = true := by
  induction n using Nat.strong_induction_on with
  | _ n ih =>
      rw [natChars]
      split_ifs with h
      · simp [isDigitChar_digitChar n h]
      · rw [List.all_append]
        rw [ih (n / 10) (Nat.div_lt_self (by omega) (by omega))]
        simp [isDigitChar_digitChar _ (Nat.mod_lt n (by omega))]

theorem digitsVal_natChars (n : Nat) : digitsVal (natChars n) = n := by
  induction n using Nat.strong_induction_on with
  | _ n ih =>
      rw [natChars]
      split_ifs with h
      · simp only [digitsVal, List.foldl_cons, List.foldl_nil,
          digitChar_toNat n h]
        omega
      · rw [digitsVal_append, ih (n / 10) (Nat.div_lt_self (by omega) (by omega))]
        rw [digitChar_toNat _ (Nat.mod_lt n (by omega))]
        omega

theorem natChars_head_digit (n : Nat) :
    ∀ c rest, natChars n = c :: rest → isDigitChar c = true := by
  induction n using Nat.strong_induction_on with
  | _ n ih =>
      intro c rest hc
      rw [natChars] at hc
      split_ifs at hc with h
      · simp only [List.cons.injEq] at hc
        rw [← hc.1]
        exact isDigitChar_digitChar n h
      · rcases hnc : natChars (n / 10) with _ | ⟨c0, rest0⟩
        · exact absurd hnc (natChars_ne_nil _)
        · rw [hnc] at hc
          simp only [List.cons_append, List.cons.injEq] at hc
          rw [← hc.1]
          exact ih (n / 10) (Nat.div_lt_self (by omega) (by omega)) c0 rest0 hnc

theorem parseNatChars_natChars (n : Nat) :
    parseNatChars (natChars n) = some n := by
  unfold parseNatChars
  have hne : (natChars n).isEmpty = false := by
    rcases hn : natChars n with _ | _
    · exact absurd hn (natChars_ne_nil n)
    · rfl
  rw [natChars_all n, hne]
  simp [digitsVal_natChars n]

theorem parseIntStr_intChars (z : Int) :
    parseIntStr (String.mk (intChars z)) = some z := by
  unfold intChars
  by_cases hz : z < 0
  · simp only [hz, if_true]
    unfold parseIntStr
    simp [parseNatChars_natChars]
    rw [abs_of_neg hz]
    omega
  · simp only [hz, if_false]
    rcases hnc : natChars z.natAbs with _ | ⟨c, rest⟩
    · exact absurd hnc (natChars_ne_nil _)
    · have hcd := natChars_head_digit z.natAbs c rest hnc
      have hcne : ¬(c = '-') := by
        intro he
        rw [he] at hcd
        exact absurd hcd (by decide)
      have hp : parseNatChars (c :: rest) = some z.natAbs := by
        rw [← hnc]
        exact parseNatChars_natChars z.natAbs
      unfold parseIntStr
      simp [hcne, hp]
      omega

/-! ## Codec round-trip lemmas: timestamps -/

theorem readFixed_padDigits_exact (k n : Nat) (h : n < 10 ^ k) :
    readFixed k (padDigits k n) = some (n, []) := by
  have h2 := readFixed_padDigits k n h []
  rwa [List.append_nil] at h2

theorem parseFrac_nil : parseFrac [] = some (0, []) := rfl

theorem parseFrac_plus (rest : List Char) :
    parseFrac ('+' :: rest) = some (0, '+' :: rest) := rfl

theorem parseFrac_minus (rest : List Char) :
    parseFrac ('-' :: rest) = some (0, '-' :: rest) := rfl

theorem parseFrac_pad (micro : Nat) (h : micro < 10 ^ 6) :
    ∀ rest, parseFrac ('.' :: (padDigits 6 micro ++ rest)) =
      some (micro, rest) := by
  intro rest
  have hr := readFixed_padDigits 6 micro h rest
  show (match readFixed 6 (padDigits 6 micro ++ rest) with
        | some (m, rest2) => some (m, rest2)
        | none => none) = some (micro, rest)
  rw [hr]

theorem parseFrac_pad_exact (micro : Nat) (h : micro < 10 ^ 6) :
    parseFrac ('.' :: padDigits 6 micro) = some (micro, []) := by
  have h2 := parseFrac_pad micro h []
  rwa [List.append_nil] at h2

theorem parseTz_nil : parseTz [] = some none := rfl

theorem parseTz_pad (c : Char) (hc : c = '+' ∨ c = '-') (hh mm : Nat)
    (hhh : hh < 100) (hmm : mm < 100) :
    parseTz (c :: (padDigits 2 hh ++ ':' :: padDigits 2 mm)) =
      some (some (if c = '-' then -(((hh * 60 + mm : Nat)) : Int)
        else (((hh * 60 + mm : Nat)) : Int))) := by
  have h1 := readFixed_padDigits 2 hh hhh (':' :: padDigits 2 mm)
  have h2 := readFixed_padDigits_exact 2 mm hmm
  simp only [parseTz, if_pos hc, h1, expectChar_cons, h2, if_pos rfl]
  simp

/-- The fixed `YYYY-MM-DDTHH:MM:SS` prefix of the parser, leaving the
fraction and offset to `parseFrac`/`parseTz` on the remaining `tail`. -/
theorem parseIso_shape (y mo da hh mi ss : Nat) (hy : y < 10000)
    (hmo : mo < 100) (hda : da < 100) (hhh : hh < 100) (hmi : mi < 100)
    (hss : ss < 100) (tail : List Char) :
    parseIso (String.mk (padDigits 4 y ++ '-' :: padDigits 2 mo
      ++ '-' :: padDigits 2 da ++ 'T' :: padDigits 2 hh
      ++ ':' :: padDigits 2 mi ++ ':' :: (padDigits 2 ss ++ tail))) =
      (match parseFrac tail with
       | some (micro, cs) =>
           match parseTz cs with
           | some tz => some ⟨y, mo, da, hh, mi, ss, micro, tz⟩
           | none => none
       | none => none) := by
  unfold parseIso
  simp only [List.append_assoc, List.cons_append]
  simp only [readFixed_padDigits 4 y (by omega),
    readFixed_padDigits 2 mo (by omega), readFixed_padDigits 2 da (by omega),
    readFixed_padDigits 2 hh (by omega), readFixed_padDigits 2 mi (by omega),
    readFixed_padDigits 2 ss (by omega), expectChar_cons,
    Option.bind_eq_bind, Option.some_bind]
  rcases parseFrac tail with _ | ⟨micro, cs⟩
  · rfl
  · simp only [Option.some_bind]
    rcases parseTz cs with _ | tz
    · rfl
    · rfl

theorem parseIso_isoformat (d : DateTime) (h : wfDateTime d = true) :
    parseIso d.isoformat = some d := by
  obtain ⟨y, mo, da, hh, mi, ss, micro, tz⟩ := d
  rcases tz with _ | off
  · simp only [wfDateTime, Bool.and_eq_true, decide_eq_true_eq] at h
    unfold DateTime.isoformat
    simp only [tzChars, List.append_nil]
    by_cases hmic : micro = 0
    · rw [if_pos hmic,
        parseIso_shape y mo da hh mi ss (by omega) (by omega) (by omega)
          (by omega) (by omega) (by omega) []]
      simp only [parseFrac_nil, parseTz_nil, hmic]
    · rw [if_neg hmic,
        parseIso_shape y mo da hh mi ss (by omega) (by omega) (by omega)
          (by omega) (by omega) (by omega) ('.' :: padDigits 6 micro)]
      simp only [parseFrac_pad_exact micro (by omega), parseTz_nil]
  · simp only [wfDateTime, Bool.and_eq_true, decide_eq_true_eq] at h
    unfold DateTime.isoformat
    simp only [tzChars]
    by_cases hoff : off < 0
    · rw [show (if off < 0 then '-' else '+') = '-' from if_pos hoff]
      have htzp := parseTz_pad '-' (Or.inr rfl) (off.natAbs / 60)
        (off.natAbs % 60) (by omega) (by omega)
      rw [if_pos rfl] at htzp
      have htzval : -(((off.natAbs / 60 * 60 + off.natAbs % 60 : Nat)) : Int)
          = off := by omega
      by_cases hmic : micro = 0
      · rw [if_pos hmic,
          parseIso_shape y mo da hh mi ss (by omega) (by omega) (by omega)
            (by omega) (by omega) (by omega) _]
        simp only [parseFrac_minus, htzp, htzval, hmic]
      · rw [if_neg hmic,
          parseIso_shape y mo da hh mi ss (by omega) (by omega) (by omega)
            (by omega) (by omega) (by omega) _]
        simp only [parseFrac_pad micro (by omega), htzp, htzval]
    · rw [show (if off < 0 then '-' else '+') = '+' from if_neg hoff]
      have htzp := parseTz_pad '+' (Or.inl rfl) (off.natAbs / 60)
        (off.natAbs % 60) (by omega) (by omega)
      rw [if_neg (by decide)] at htzp
      have htzval : (((off.natAbs / 60 * 60 + off.natAbs % 60 : Nat)) : Int)
          = off := by omega
      by_cases hmic : micro = 0
      · rw [if_pos hmic,
          parseIso_shape y mo da hh mi ss (by omega) (by omega) (by omega)
            (by omega) (by omega) (by omega) _]
        simp only [parseFrac_plus, htzp, htzval, hmic]
      · rw [if_neg hmic,
          parseIso_shape y mo da hh mi ss (by omega) (by omega) (by omega)
            (by omega) (by omega) (by omega) _]
        simp only [parseFrac_pad micro (by omega), htzp, htzval]

/-! ## Codec round-trip lemmas: cells and rows -/

theorem loadBoolStr_boolStr (b : Bool) : loadBoolStr (boolStr b) = b := by
  cases b <;> decide

theorem loadOptStrCell_optCell (o : Option String) (h : wfOptStr o = true) :
    loadOptStrCell (optCell o) = o := by
  rcases o with _ | s
  · rfl
  · simp only [wfOptStr] at h
    have hne : s ≠ "" := by
      intro he
      rw [he] at h
      exact absurd h (by decide)
    simp [optCell, loadOptStrCell, hne]

theorem intChars_ne_nil (z : Int) : intChars z ≠ [] := by
  unfold intChars
  split_ifs
  · simp
  · exact natChars_ne_nil _

theorem loadOptIntCell_intCell (o : Option Int) :
    loadOptIntCell (intCell o) = some o := by
  rcases o with _ | z
  · rfl
  · have hne : String.mk (intChars z) ≠ "" := by
      intro he
      have hd : intChars z = [] := by
        have h2 := congrArg String.data he
        simpa using h2
      exact intChars_ne_nil z hd
    simp [intCell, loadOptIntCell, hne, parseIntStr_intChars]

theorem isoformat_ne_empty (d : DateTime) : d.isoformat ≠ "" := by
  intro he
  have hd := congrArg String.data he
  simp only [DateTime.isoformat] at hd
  rcases hp : padDigits 4 d.year with _ | ⟨c, rest⟩
  · have := padDigits_length 4 d.year
    rw [hp] at this
    simp at this
  · rw [hp] at hd
    simp at hd

theorem loadDtCell_dtCell_none : loadDtCell (dtCell none) = some none := rfl

theorem loadDtCell_dtCell_some (d : DateTime) (h : wfDateTime d = true) :
    loadDtCell (dtCell (some d)) = some (some d) := by
  simp [dtCell, loadDtCell, isoformat_ne_empty d, parseIso_isoformat d h]

theorem loadRow_saveRow (r : IncidentManifestRow) (h : wfRow r = true) :
    loadRowCells (saveRowCells r) = some r := by
  obtain ⟨src, iid, title, docc, drel, durl, purl, ppath, dl, rat, hst, ct,
    fsz, sha, err⟩ := r
  simp only [wfRow, Bool.and_eq_true] at h
  obtain ⟨⟨⟨⟨⟨h1, h2⟩, h3⟩, h4⟩, h5⟩, h6⟩ := h
  have hsrc : parseSource (sourceStr src) = some src := by
    cases src <;> rfl
  have hdt : loadDtCell (dtCell rat) = some rat := by
    rcases rat with _ | dtv
    · rfl
    · exact loadDtCell_dtCell_some dtv h6
  simp only [saveRowCells, loadRowCells, hsrc, hdt,
    loadOptIntCell_intCell hst, loadOptIntCell_intCell fsz,
    loadOptStrCell_optCell docc h1, loadOptStrCell_optCell drel h2,
    loadOptStrCell_optCell ct h3, loadOptStrCell_optCell sha h4,
    loadOptStrCell_optCell err h5, loadBoolStr_boolStr]

theorem load_save_incident_manifest (rows : List IncidentManifestRow)
    (h : ∀ r ∈ rows, wfRow r = true) :
    load_incident_manifest (save_incident_manifest rows) = some rows := by
  induction rows with
  | nil => rfl
  | cons r rest ih =>
      have ih2 := ih (fun r' hr' => h r' (List.mem_cons_of_mem r hr'))
      simp only [save_incident_manifest, List.map_cons, load_incident_manifest]
      rw [loadRow_saveRow r (h r (by simp))]
      simp only [save_incident_manifest] at ih2
      rw [ih2]

/-! ## Download model

Embeds `download_csb_pdf` (`sources/csb.py`) and `download_bsee_pdf`
(`sources/bsee.py`), whose download logic is identical.  `now` stands
for `datetime.now(timezone.utc)`, `shaHex` for the hex digest of the
streamed bytes, and the network call's outcome is passed in explicitly
(`exception` is a raised `requests.RequestException`, which the function
catches). -/

inductive HttpOutcome where
  | exception (msg : String)
  | response (status : Int) (contentType : String) (body : List Nat)

def download_pdf (row : IncidentManifestRow) (now : DateTime)
    (shaHex : List Nat → String) (outcome : HttpOutcome) :
    IncidentManifestRow :=
  match outcome with
  | .exception msg =>
      { row with retrieved_at := some now, downloaded := false,
                 error := some msg }
  | .response status contentType body =>
      let base := { row with retrieved_at := some now,
                             http_status := some status,
                             content_type := some contentType }
      if status ≠ 200 then { base with downloaded := false }
      else
        let ctLower := toLowerStr contentType
        let is_pdf := decide ("pdf".data <:+: ctLower.data)
          || decide (".pdf".data <:+ (toLowerStr row.pdf_url).data)
        if !is_pdf then
          { base with downloaded := false,
                      error := some ("Not a PDF: " ++ ctLower) }
        else
          { base with downloaded := true,
                      file_size_bytes := some (body.length : Int),
                      sha256 := some (shaHex body) }

/-! ## Structured extraction (structured.py) -/

/-- Row of the structured-extraction manifest, from
`StructuredManifestRow` in `src/ingestion/structured.py`. -/
structure StructuredManifestRow where
  incident_id : String
  source_text_path : String
  output_json_path : String
  provider : String
  model : Option String := none
  extracted : Bool := false
  extracted_at : Option DateTime := none
  valid : Bool := false
  validation_errors : Option String := none
  error : Option String := none
  raw_response_path : Option String := none
  deriving DecidableEq, Repr

/-- Embeds `merge_structured_manifests`: unconditional upsert by
`incident_id` over `existing` then `new`. -/
def merge_structured_manifests (existing new : List StructuredManifestRow) :
    List StructuredManifestRow :=
  ((new.foldl (fun idx row => upsert idx row.incident_id row)
      (existing.foldl (fun idx row => upsert idx row.incident_id row)
        [])).map Prod.snd)

/-- ASCII whitespace, as stripped by Python `str.strip`. -/
def isSpaceChar (c : Char) : Bool :=
  c = ' ' || c = '\t' || c = '\n' || c = '\r' || c = '\x0b' || c = '\x0c'

/-- Python `str.strip()` at the character level. -/
def strTrim (s : String) : String :=
  String.mk (((s.data.dropWhile isSpaceChar).reverse.dropWhile
    isSpaceChar).reverse)

/-- Python `str.startswith` at the character level. -/
def strStartsWith (s pre : String) : Bool :=
  pre.data.isPrefixOf s.data

/-- Python `str.split("\n")` at the character level. -/
def splitLines : List Char → List (List Char)
  | [] => [[]]
  | c :: rest =>
      if c = '\n' then [] :: splitLines rest
      else
        match splitLines rest with
        | [] => [[c]]
        | l :: ls => (c :: l) :: ls

/-- Python `"\n".join` at the character level. -/
def joinLines : List (List Char) → List Char
  | [] => []
  | [l] => l
  | l :: rest => l ++ '\n' :: joinLines rest

/-- Python `s[:n]`. -/
def strTake (s : String) (n : Nat) : String :=
  String.mk (s.data.take n)

/-- Strategy 2 of `_parse_llm_json`: drop every line whose stripped form
starts with a code fence. -/
def stripFences (text : String) : String :=
  String.mk (joinLines ((splitLines text.data).filter
    (fun ln => !(strStartsWith (strTrim (String.mk ln)) ("```")))))

/-- Strategy 3 of `_parse_llm_json`: scan from the first opening brace,
tracking depth, and return the candidate through the matching close
brace (`none` when the braces never balance). -/
def scanBrace : List Char → Nat → List Char → Option (List Char)
  | [], _, _ => none
  | c :: rest, depth, acc =>
      if c = '{' then scanBrace rest (depth + 1) (acc ++ [c])
      else if c = '}' then
        (if depth = 1 then some (acc ++ [c])
         else scanBrace rest (depth - 1) (acc ++ [c]))
      else scanBrace rest depth (acc ++ [c])

def firstBraceBlock (text : String) : Option String :=
  match text.data.dropWhile (fun c => !(c = '{')) with
  | [] => none
  | cs => (scanBrace cs 0 []).map String.mk

/-- Embeds `_parse_llm_json`, with `json.loads` abstracted as `jsonLoads`
(`none` models a raised `JSONDecodeError`); `none` overall means the
terminal parse error after all three strategies failed. -/
def parse_llm_json {α : Type} (jsonLoads : String → Option α)
    (raw : String) : Option α :=
  let text := strTrim raw
  match jsonLoads text with
  | some v => some v
  | none =>
      match (if strStartsWith text ("```") then jsonLoads (stripFences text)
             else none) with
      | some v => some v
      | none =>
          match firstBraceBlock text with
          | some candidate => jsonLoads candidate
          | none => none

/-- Best-effort diagnostic payload written on a parse failure. -/
structure ErrorPayload where
  incident_id : String
  errors : List String
  raw : String
  deriving DecidableEq, Repr

/-- Embeds the `json.JSONDecodeError` handler inside `extract_structured`
(the `except` branch around `_parse_llm_json`): the manifest row still
gets `extracted=true` and `valid=false` with the parse error recorded,
and a diagnostic payload is written to the record's output path. -/
def handle_parse_failure (row : StructuredManifestRow)
    (incident_id raw_response parse_err : String) (now : DateTime) :
    StructuredManifestRow × ErrorPayload :=
  ({ row with extracted := true, extracted_at := some now, valid := false,
              validation_errors := some ("JSON parse error: " ++ parse_err) },
   { incident_id := incident_id,
     errors := ["JSON parse error: " ++ parse_err],
     raw := strTake raw_response 2000 })

/-- The last row of `l` whose `incident_id` is `i` (the one a Python
dict keyed by `incident_id` retains). -/
def lastWithId : List StructuredManifestRow → String →
    Option StructuredManifestRow
  | [], _ => none
  | r :: rest, i =>
      match lastWithId rest i with
      | some x => some x
      | none => if r.incident_id = i then some r else none

theorem findRow_foldUpsertId (l : List StructuredManifestRow) :
    ∀ (idx : Assoc String StructuredManifestRow) (i : String),
      findRow (l.foldl (fun idx row => upsert idx row.incident_id row) idx) i
        = match lastWithId l i with
          | some r => some r
          | none => findRow idx i := by
  induction l with
  | nil =>
      intro idx i
      rfl
  | cons r rest ih =>
      intro idx i
      simp only [List.foldl_cons, lastWithId]
      rw [ih]
      rcases lastWithId rest i with _ | x
      · by_cases hi : r.incident_id = i
        · rw [hi, if_pos rfl, findRow_upsert_self]
        · rw [if_neg hi, findRow_upsert_ne _ _ _ _ (fun he => hi he.symm)]
      · rfl

theorem lastWithId_mem (l : List StructuredManifestRow) (i : String)
    (x : StructuredManifestRow) (h : lastWithId l i = some x) :
    x ∈ l ∧ x.incident_id = i := by
  induction l with
  | nil => simp [lastWithId] at h
  | cons r rest ih =>
      simp only [lastWithId] at h
      rcases h2 : lastWithId rest i with _ | y
      · rw [h2] at h
        split_ifs at h with hi
        simp only [Option.some.injEq] at h
        subst h
        exact ⟨by simp, hi⟩
      · rw [h2] at h
        simp only [Option.some.injEq] at h
        subst h
        obtain ⟨hm, hid⟩ := ih h2
        exact ⟨List.mem_cons_of_mem r hm, hid⟩

theorem lastWithId_eq_none (l : List StructuredManifestRow) (i : String) :
    lastWithId l i = none ↔ ∀ r ∈ l, r.incident_id ≠ i := by
  induction l with
  | nil => simp [lastWithId]
  | cons r rest ih =>
      simp only [lastWithId]
      rcases h : lastWithId rest i with _ | x
      · have hrest : ∀ r' ∈ rest, r'.incident_id ≠ i := ih.1 h
        constructor
        · intro hnone r' hr'
          rcases List.mem_cons.1 hr' with he | hm
          · subst he
            intro hi
            rw [if_pos hi] at hnone
            simp at hnone
          · exact hrest r' hm
        · intro hall
          rw [if_neg (hall r (by simp))]
      · constructor
        · intro hc
          simp at hc
        · intro hall
          obtain ⟨hm, hid⟩ := lastWithId_mem rest i x h
          exact absurd hid (hall x (List.mem_cons_of_mem r hm))

theorem fillStr_eq_ite (a b : String) :
    fillStr a b =
      (if strTruthy a = false ∧ strTruthy b = true then b else a) := by
  cases ha : strTruthy a <;> cases hb : strTruthy b <;>
    simp [fillStr, ha, hb]

theorem fillOptStr_eq_ite (a b : Option String) :
    fillOptStr a b =
      (if optStrTruthy a = false ∧ optStrTruthy b = true then b else a) := by
  cases ha : optStrTruthy a <;> cases hb : optStrTruthy b <;>
    simp [fillOptStr, ha, hb]

/-! ## Claim theorems -/

/-- C3: the conflict resolver is a total function implementing exactly
the spec's strict lexicographic priority chain (rule 1 `downloaded`,
rule 2 `retrieved_at`, rule 3 hash presence, rule 4 `file_size_bytes`,
else TIE), first non-tie deciding: `specCompare`, assembled rule by rule
from the spec's words, agrees with the code's `compare_rows` on every
pair of rows; and on a TIE the merge engine treats the pre-existing
record as the winner (enriching it from the incoming record). -/
theorem conflict_resolver_implements_spec_chain :
    (∀ a b : IncidentManifestRow,
      specCompare a b = toDecInt (compare_rows a b)) ∧
    (∀ (idx : MergeIndex) (row er : IncidentManifestRow),
      findRow idx (get_merge_key row) = some er →
      compare_rows er row = 0 →
      mergeStep idx row =
        upsert idx (get_merge_key row) (enrich_winner er row)) := by
  constructor
  · exact specCompare_eq_compare_rows
  · intro idx row er hf hc
    unfold mergeStep
    simp only [hf]
    rw [if_pos (by omega : compare_rows er row ≤ 0)]

def c3existing : IncidentManifestRow :=
  { source := Source.csb, incident_id := "i1", title := "Fire",
    detail_url := "", pdf_url := "u", pdf_path := "p1" }

def c3incoming : IncidentManifestRow :=
  { source := Source.csb, incident_id := "i2", title := "",
    detail_url := "d", pdf_url := "u", pdf_path := "p2" }

theorem conflict_resolver_implements_spec_chain_witness :
    specCompare c3existing c3incoming =
      toDecInt (compare_rows c3existing c3incoming) ∧
    mergeStep [(get_merge_key c3incoming, c3existing)] c3incoming =
      upsert [(get_merge_key c3incoming, c3existing)]
        (get_merge_key c3incoming) (enrich_winner c3existing c3incoming) :=
  ⟨conflict_resolver_implements_spec_chain.1 c3existing c3incoming,
   conflict_resolver_implements_spec_chain.2 _ c3incoming c3existing
     (by decide) (by decide)⟩

/-- C4: enrichment without state leakage — the enriched record equals
the winner on every field, except that each descriptive field (`title`,
`date_occurred`, `date_report_released`, `detail_url`, `pdf_path`) is
taken from the loser exactly when the winner's value is empty/absent and
the loser's is not; the state fields (`downloaded`, `retrieved_at`,
`http_status`, `content_type`, `file_size_bytes`, `sha256`, `error`) and
the identity fields are always the winner's. -/
theorem enrichment_without_state_leakage (w l : IncidentManifestRow) :
    (enrich_winner w l).title =
      (if strTruthy w.title = false ∧ strTruthy l.title = true
       then l.title else w.title) ∧
    (enrich_winner w l).date_occurred =
      (if optStrTruthy w.date_occurred = false ∧
          optStrTruthy l.date_occurred = true
       then l.date_occurred else w.date_occurred) ∧
    (enrich_winner w l).date_report_released =
      (if optStrTruthy w.date_report_released = false ∧
          optStrTruthy l.date_report_released = true
       then l.date_report_released else w.date_report_released) ∧
    (enrich_winner w l).detail_url =
      (if strTruthy w.detail_url = false ∧ strTruthy l.detail_url = true
       then l.detail_url else w.detail_url) ∧
    (enrich_winner w l).pdf_path =
      (if strTruthy w.pdf_path = false ∧ strTruthy l.pdf_path = true
       then l.pdf_path else w.pdf_path) ∧
    (enrich_winner w l).source = w.source ∧
    (enrich_winner w l).incident_id = w.incident_id ∧
    (enrich_winner w l).pdf_url = w.pdf_url ∧
    (enrich_winner w l).downloaded = w.downloaded ∧
    (enrich_winner w l).retrieved_at = w.retrieved_at ∧
    (enrich_winner w l).http_status = w.http_status ∧
    (enrich_winner w l).content_type = w.content_type ∧
    (enrich_winner w l).file_size_bytes = w.file_size_bytes ∧
    (enrich_winner w l).sha256 = w.sha256 ∧
    (enrich_winner w l).error = w.error := by
  refine ⟨?_, ?_, ?_, ?_, ?_, rfl, rfl, rfl, rfl, rfl, rfl, rfl, rfl, rfl, rfl⟩ <;>
    simp [enrich_winner, fillStr_eq_ite, fillOptStr_eq_ite]

/-- C5: the merge key is `(source, pdf_url)` when `pdf_url` is non-empty
and `(source, incident_id)` otherwise; records with identical non-empty
`pdf_url` but different sources keep distinct keys and are never merged
into one, while records with empty `pdf_url` and identical
`(source, incident_id)` merge into one. -/
theorem merge_key_identity :
    (∀ r : IncidentManifestRow,
      get_merge_key r =
        (if strTruthy r.pdf_url then (r.source, r.pdf_url)
         else (r.source, r.incident_id))) ∧
    (∀ r1 r2 : IncidentManifestRow, strTruthy r1.pdf_url = true →
      r1.pdf_url = r2.pdf_url → r1.source ≠ r2.source →
      get_merge_key r1 ≠ get_merge_key r2 ∧
      (merge_incident_manifests [r1] [r2]).length = 2) ∧
    (∀ r1 r2 : IncidentManifestRow, strTruthy r1.pdf_url = false →
      strTruthy r2.pdf_url = false → r1.source = r2.source →
      r1.incident_id = r2.incident_id →
      (merge_incident_manifests [r1] [r2]).length = 1) := by
  refine ⟨fun r => rfl, ?_, ?_⟩
  · intro r1 r2 h1 hurl hsrc
    have hk1 : get_merge_key r1 = (r1.source, r1.pdf_url) := by
      simp [get_merge_key, h1]
    have h2 : strTruthy r2.pdf_url = true := hurl ▸ h1
    have hk2 : get_merge_key r2 = (r2.source, r2.pdf_url) := by
      simp [get_merge_key, h2]
    have hk : get_merge_key r1 ≠ get_merge_key r2 := by
      rw [hk1, hk2]
      intro he
      rw [Prod.ext_iff] at he
      exact hsrc he.1
    refine ⟨hk, ?_⟩
    have hidx : indexExisting [r1] = [(get_merge_key r1, r1)] := rfl
    have hfind : findRow [(get_merge_key r1, r1)] (get_merge_key r2) = none := by
      simp [findRow, hk]
    unfold merge_incident_manifests
    rw [hidx]
    simp only [List.foldl_cons, List.foldl_nil, mergeStep, hfind]
    rw [upsert_append_of_not_mem _ _ _ (by simp [Ne.symm hk])]
    simp
  · intro r1 r2 h1 h2 hsrc hid
    have hk : get_merge_key r2 = get_merge_key r1 := by
      simp [get_merge_key, h1, h2, hsrc, hid]
    have hidx : indexExisting [r1] = [(get_merge_key r1, r1)] := rfl
    have hfind : findRow [(get_merge_key r1, r1)] (get_merge_key r2)
        = some r1 := by
      simp [findRow, hk]
    unfold merge_incident_manifests
    rw [hidx]
    simp only [List.foldl_cons, List.foldl_nil, mergeStep, hfind]
    by_cases hc : compare_rows r1 r2 ≤ 0 <;>
      simp [hc, hk, upsert]

def c5a : IncidentManifestRow :=
  { source := Source.csb, incident_id := "x", title := "t",
    detail_url := "", pdf_url := "u1", pdf_path := "p" }

def c5b : IncidentManifestRow :=
  { source := Source.bsee, incident_id := "y", title := "t",
    detail_url := "", pdf_url := "u1", pdf_path := "p" }

def c5c : IncidentManifestRow :=
  { source := Source.csb, incident_id := "z", title := "t",
    detail_url := "", pdf_url := "", pdf_path := "p" }

def c5d : IncidentManifestRow :=
  { source := Source.csb, incident_id := "z", title := "t2",
    detail_url := "d", pdf_url := "", pdf_path := "p2" }

theorem merge_key_identity_witness :
    (get_merge_key c5a ≠ get_merge_key c5b ∧
      (merge_incident_manifests [c5a] [c5b]).length = 2) ∧
    (merge_incident_manifests [c5c] [c5d]).length = 1 :=
  ⟨merge_key_identity.2.1 c5a c5b (by decide) (by decide) (by decide),
   merge_key_identity.2.2 c5c c5d (by decide) (by decide) (by decide)
     (by decide)⟩

/-- C10: key conservation — the merge output carries exactly the union
of the input merge keys, no two output records share a key, and
enrichment never modifies the identity fields `source`, `incident_id`,
`pdf_url`, so a record's merge key is stable through conflict resolution
and enrichment. -/
theorem merge_key_conservation (existing new : List IncidentManifestRow) :
    ((merge_incident_manifests existing new).map get_merge_key).Nodup ∧
    (∀ k : MergeKey,
      k ∈ (merge_incident_manifests existing new).map get_merge_key ↔
        k ∈ existing.map get_merge_key ∨ k ∈ new.map get_merge_key) ∧
    (∀ w l : IncidentManifestRow,
      (enrich_winner w l).source = w.source ∧
      (enrich_winner w l).incident_id = w.incident_id ∧
      (enrich_winner w l).pdf_url = w.pdf_url) := by
  have hWF : WFIdx (new.foldl mergeStep (indexExisting existing)) :=
    WFIdx_fold_mergeStep new _ (WFIdx_indexExisting existing)
  have hkeys : (merge_incident_manifests existing new).map get_merge_key
      = (new.foldl mergeStep (indexExisting existing)).map Prod.fst :=
    output_keys_eq _ hWF
  refine ⟨?_, ?_, fun w l => ⟨rfl, rfl, rfl⟩⟩
  · rw [hkeys]
    exact hWF.1
  · intro k
    rw [hkeys, mem_keys_foldl_mergeStep new (indexExisting existing) k,
      mem_keys_indexExisting existing k]
    constructor
    · intro h
      rcases h with ⟨r, hr, hk⟩ | ⟨r, hr, hk⟩
      · exact Or.inr (List.mem_map.2 ⟨r, hr, hk⟩)
      · exact Or.inl (List.mem_map.2 ⟨r, hr, hk⟩)
    · intro h
      rcases h with h | h
      · obtain ⟨r, hr, hk⟩ := List.mem_map.1 h
        exact Or.inr ⟨r, hr, hk⟩
      · obtain ⟨r, hr, hk⟩ := List.mem_map.1 h
        exact Or.inl ⟨r, hr, hk⟩

/-- C1 counterexample: the monotonic-progress claim, universally
quantified over record lists, fails when `incoming` also contains a
second record at the same merge key that wins the conflict (here: it is
also downloaded, has a timestamp, and carries a different hash) — the
merged record keeps `downloaded=true` but its content hash is `"h2"`,
not `r`'s `"h1"`. -/
def c1r : IncidentManifestRow :=
  { source := Source.csb, incident_id := "i1", title := "T",
    detail_url := "d", pdf_url := "u", pdf_path := "p",
    downloaded := true, sha256 := some "h1" }

def c1s1 : IncidentManifestRow :=
  { source := Source.csb, incident_id := "i1", title := "T",
    detail_url := "d", pdf_url := "u", pdf_path := "p",
    downloaded := false }

def c1s2 : IncidentManifestRow :=
  { source := Source.csb, incident_id := "i1", title := "T",
    detail_url := "d", pdf_url := "u", pdf_path := "p",
    downloaded := true,
    retrieved_at := some ⟨2021, 5, 6, 7, 8, 9, 0, some 0⟩,
    sha256 := some "h2" }

theorem monotonic_progress_counterexample :
    c1r ∈ [c1r] ∧ c1r.downloaded = true ∧ c1r.sha256 = some "h1" ∧
    c1s1 ∈ [c1s1, c1s2] ∧ get_merge_key c1s1 = get_merge_key c1r ∧
    c1s1.downloaded = false ∧
    ¬(∀ m ∈ merge_incident_manifests [c1r] [c1s1, c1s2],
        get_merge_key m = get_merge_key c1r →
        m.downloaded = true ∧ m.sha256 = c1r.sha256) := by
  decide

/-- C1 (amended): monotonic progress holds for the record the existing
index retains at key `k` (the last record of `existing` with that key)
when every incoming record at that key has `downloaded=false`: the
merged record at `k` keeps `downloaded=true` and the retained record's
content hash. -/
theorem monotonic_progress (existing incoming : List IncidentManifestRow)
    (k : MergeKey) (r : IncidentManifestRow)
    (hr : findRow (indexExisting existing) k = some r)
    (hdl : r.downloaded = true) (hsha : optStrTruthy r.sha256 = true)
    (hinc : ∀ s ∈ incoming, get_merge_key s = k → s.downloaded = false) :
    (∃ m ∈ merge_incident_manifests existing incoming,
      get_merge_key m = k ∧ m.downloaded = true ∧ m.sha256 = r.sha256) ∧
    (∀ m ∈ merge_incident_manifests existing incoming,
      get_merge_key m = k → m.downloaded = true ∧ m.sha256 = r.sha256) := by
  have hWF : WFIdx (incoming.foldl mergeStep (indexExisting existing)) :=
    WFIdx_fold_mergeStep incoming _ (WFIdx_indexExisting existing)
  obtain ⟨m, hm, hmdl, hmsha⟩ :=
    monotone_fold incoming k r.sha256 (indexExisting existing) hinc
      ⟨r, hr, hdl, rfl⟩
  have hmem : (k, m) ∈ incoming.foldl mergeStep (indexExisting existing) :=
    mem_of_findRow _ k m hm
  have hkey : get_merge_key m = k := hWF.2 (k, m) hmem
  constructor
  · exact ⟨m, mem_snd_of_findRow _ k m hm, hkey, hmdl, hmsha⟩
  · intro m2 hm2 hk2
    obtain ⟨p, hp, hps⟩ := List.mem_map.1 hm2
    obtain ⟨k2, v2⟩ := p
    have hk2eq : k2 = k := by
      rw [← hk2, ← hps]
      exact (hWF.2 (k2, v2) hp).symm
    subst hk2eq
    have hfind := findRow_of_mem_nodup _ k2 v2 hWF.1 hp
    rw [hfind] at hm
    have hmm : m = v2 := by
      simpa using hm.symm
    rw [← hps, ← hmm]
    exact ⟨hmdl, hmsha⟩

def c1wr : IncidentManifestRow :=
  { source := Source.csb, incident_id := "w1", title := "T",
    detail_url := "d", pdf_url := "wu", pdf_path := "p",
    downloaded := true, sha256 := some "wh" }

def c1ws : IncidentManifestRow :=
  { source := Source.csb, incident_id := "w1", title := "T2",
    detail_url := "", pdf_url := "wu", pdf_path := "p",
    downloaded := false }

theorem monotonic_progress_witness :
    (∃ m ∈ merge_incident_manifests [c1wr] [c1ws],
      get_merge_key m = get_merge_key c1wr ∧ m.downloaded = true ∧
      m.sha256 = c1wr.sha256) ∧
    (∀ m ∈ merge_incident_manifests [c1wr] [c1ws],
      get_merge_key m = get_merge_key c1wr →
      m.downloaded = true ∧ m.sha256 = c1wr.sha256) :=
  monotonic_progress [c1wr] [c1ws] (get_merge_key c1wr) c1wr
    (by decide) (by decide) (by decide) (by decide)

/-- C2 counterexample: `merge(X, X) == X` up to merge-key deduplication
("no field of any surviving record changed") fails when `X` contains two
records with the same merge key: indexing keeps the second, the first
then wins on hash presence and is enriched with the second's title, so
the surviving record is equal to no record of `X`. -/
def c2x1 : IncidentManifestRow :=
  { source := Source.csb, incident_id := "i1", title := "",
    detail_url := "d", pdf_url := "u", pdf_path := "p",
    downloaded := false, sha256 := some "h" }

def c2x2 : IncidentManifestRow :=
  { source := Source.csb, incident_id := "i1", title := "T",
    detail_url := "d", pdf_url := "u", pdf_path := "p",
    downloaded := false }

theorem merge_idempotence_counterexample :
    ¬(∀ m ∈ merge_incident_manifests [c2x1, c2x2] [c2x1, c2x2],
        m ∈ [c2x1, c2x2]) := by
  decide

/-- C2 (amended): `merge(X, X) = X` exactly, for every `X` with pairwise
distinct merge keys; and re-merging is absorbed for all inputs:
`merge(merge(A, B), B) = merge(A, B)`. -/
theorem merge_idempotence :
    (∀ X : List IncidentManifestRow,
      (X.map get_merge_key).Nodup → merge_incident_manifests X X = X) ∧
    (∀ A B : List IncidentManifestRow,
      merge_incident_manifests (merge_incident_manifests A B) B =
        merge_incident_manifests A B) := by
  constructor
  · intro X hnd
    have hidx : indexExisting X = X.map (fun r => (get_merge_key r, r)) :=
      indexExisting_eq_of_nodup X hnd
    have hndk : ((X.map fun r => (get_merge_key r, r)).map Prod.fst).Nodup := by
      rw [List.map_map]
      simpa [Function.comp] using hnd
    have hcov : ∀ x ∈ X, covers (indexExisting X) x := by
      intro x hx
      refine ⟨x, ?_, le_refl _, absorbs_refl x⟩
      rw [hidx]
      exact findRow_of_mem_nodup _ _ _ hndk
        (List.mem_map_of_mem (fun r => (get_merge_key r, r)) hx)
    unfold merge_incident_manifests
    rw [foldl_mergeStep_eq_of_covers X (indexExisting X) hcov, hidx,
      List.map_map]
    have hcomp :
        (Prod.snd ∘ fun r : IncidentManifestRow => (get_merge_key r, r))
          = id := rfl
    rw [hcomp, List.map_id]
  · intro A B
    have hWF : WFIdx (B.foldl mergeStep (indexExisting A)) :=
      WFIdx_fold_mergeStep B _ (WFIdx_indexExisting A)
    have hcov : ∀ b ∈ B, covers (B.foldl mergeStep (indexExisting A)) b :=
      covers_foldl_mem B (indexExisting A)
    have h1 : merge_incident_manifests A B
        = (B.foldl mergeStep (indexExisting A)).map Prod.snd := rfl
    rw [h1]
    unfold merge_incident_manifests
    rw [indexExisting_map_snd _ hWF, foldl_mergeStep_eq_of_covers B _ hcov]

theorem merge_idempotence_witness :
    merge_incident_manifests [c1wr] [c1wr] = [c1wr] ∧
    merge_incident_manifests (merge_incident_manifests [c1wr] [c1ws]) [c1ws]
      = merge_incident_manifests [c1wr] [c1ws] :=
  ⟨merge_idempotence.1 [c1wr] (by decide),
   merge_idempotence.2 [c1wr] [c1ws]⟩

/-- C6 counterexample: the unrestricted round-trip claim fails for a
record whose `content_type` is the empty string (reachable from
`headers.get("Content-Type", "")`): it is saved as an empty cell and
loads back as `None`. -/
def c6bad : IncidentManifestRow :=
  { source := Source.csb, incident_id := "i", title := "t",
    detail_url := "", pdf_url := "u", pdf_path := "p",
    content_type := some "" }

theorem persistence_roundtrip_counterexample :
    load_incident_manifest (save_incident_manifest [c6bad])
        ≠ some [c6bad] ∧
    load_incident_manifest (save_incident_manifest [c6bad])
        = some [{ c6bad with content_type := none }] := by
  decide

/-- C6 (amended): persistence round-trip — for every list of records
whose present optional string fields are non-empty and whose timestamps
are valid datetimes, loading the saved table returns the records
exactly (booleans as case-insensitively parsed `"True"`/`"False"`
tokens, absent optionals as empty fields, timestamps through
`isoformat`/`fromisoformat`, integers through `str`/`int`). -/
theorem persistence_roundtrip (rows : List IncidentManifestRow)
    (h : ∀ r ∈ rows, wfRow r = true) :
    load_incident_manifest (save_incident_manifest rows) = some rows :=
  load_save_incident_manifest rows h

def c6absent : IncidentManifestRow :=
  { source := Source.csb, incident_id := "a", title := "",
    detail_url := "", pdf_url := "", pdf_path := "" }

def c6present : IncidentManifestRow :=
  { source := Source.bsee, incident_id := "b", title := "Rig Fire",
    date_occurred := some "2020-01-02",
    date_report_released := some "2020-02-03", detail_url := "d",
    pdf_url := "u", pdf_path := "p", downloaded := true,
    retrieved_at := some ⟨2021, 3, 4, 5, 6, 7, 123456, some 0⟩,
    http_status := some 200, content_type := some "application/pdf",
    file_size_bytes := some 1024, sha256 := some "abc12",
    error := some "e" }

theorem persistence_roundtrip_witness :
    load_incident_manifest (save_incident_manifest [c6absent, c6present])
      = some [c6absent, c6present] :=
  persistence_roundtrip [c6absent, c6present] (by decide)

/-- C7 counterexample: on a non-2xx response (HTTP 404) the download
routine returns `downloaded=false` but does not populate `error`
(contradicting "`downloaded=false` and `error` populated" for every
failure). -/
def c7row : IncidentManifestRow :=
  { source := Source.csb, incident_id := "i", title := "t",
    detail_url := "", pdf_url := "https://x/doc", pdf_path := "p" }

def c7now : DateTime := ⟨2021, 1, 1, 0, 0, 0, 0, some 0⟩

def c7sha : List Nat → String := fun _ => ""

theorem download_failure_counterexample :
    (download_pdf c7row c7now c7sha
        (HttpOutcome.response 404 ("text/html") [])).downloaded = false ∧
    ¬((download_pdf c7row c7now c7sha
          (HttpOutcome.response 404 ("text/html") [])).downloaded = false ∧
      (download_pdf c7row c7now c7sha
          (HttpOutcome.response 404 ("text/html") [])).error ≠ none) := by
  decide

/-- C7 (amended): every failing download attempt returns (never raises)
an updated record with `downloaded=false`; for request exceptions and
content-type mismatches the `error` field is populated, while for a
non-200 response only `http_status`/`retrieved_at`/`content_type` are
recorded and `error` is left unchanged. -/
theorem download_failure_recording (row : IncidentManifestRow)
    (now : DateTime) (sha : List Nat → String) (msg : String)
    (status : Int) (ct : String) (body : List Nat) :
    ((download_pdf row now sha (HttpOutcome.exception msg)).downloaded
        = false ∧
      (download_pdf row now sha (HttpOutcome.exception msg)).error
        = some msg) ∧
    (status ≠ 200 →
      (download_pdf row now sha
          (HttpOutcome.response status ct body)).downloaded = false ∧
      (download_pdf row now sha
          (HttpOutcome.response status ct body)).http_status = some status ∧
      (download_pdf row now sha
          (HttpOutcome.response status ct body)).error = row.error) ∧
    ((decide ("pdf".data <:+: (toLowerStr ct).data)
        || decide (".pdf".data <:+ (toLowerStr row.pdf_url).data)) = false →
      (download_pdf row now sha
          (HttpOutcome.response 200 ct body)).downloaded = false ∧
      (download_pdf row now sha
          (HttpOutcome.response 200 ct body)).error
        = some ("Not a PDF: " ++ toLowerStr ct)) := by
  refine ⟨⟨rfl, rfl⟩, ?_, ?_⟩
  · intro hst
    simp only [download_pdf]
    rw [if_pos hst]
    exact ⟨rfl, rfl, rfl⟩
  · intro hpdf
    simp only [download_pdf]
    rw [if_neg (fun hne : (200 : Int) ≠ 200 => hne rfl)]
    simp [hpdf]

theorem download_failure_recording_witness :
    ((download_pdf c7row c7now c7sha
        (HttpOutcome.exception ("boom"))).downloaded = false ∧
      (download_pdf c7row c7now c7sha
        (HttpOutcome.exception ("boom"))).error = some "boom") ∧
    ((download_pdf c7row c7now c7sha
        (HttpOutcome.response 404 ("text/html") [])).downloaded = false ∧
      (download_pdf c7row c7now c7sha
        (HttpOutcome.response 404 ("text/html") [])).http_status
          = some 404 ∧
      (download_pdf c7row c7now c7sha
        (HttpOutcome.response 404 ("text/html") [])).error = c7row.error) ∧
    ((download_pdf c7row c7now c7sha
        (HttpOutcome.response 200 ("text/html") [])).downloaded = false ∧
      (download_pdf c7row c7now c7sha
        (HttpOutcome.response 200 ("text/html") [])).error
          = some ("Not a PDF: " ++ toLowerStr ("text/html"))) := by
  have h := download_failure_recording c7row c7now c7sha ("boom") 404
    ("text/html") []
  exact ⟨h.1, h.2.1 (by decide), h.2.2 (by decide)⟩

/-- C8: malformed-LLM-output recovery — `_parse_llm_json` applies
exactly the three escalating strategies in order (direct parse of the
stripped text; parse after dropping code-fence lines, attempted only
when the text starts with a fence; parse of the first balanced-brace
block, whose own failure is terminal), and only when all fail is the
parse error surfaced; the `extract_structured` failure handler still
marks the record's manifest row `extracted=true`, `valid=false` and
produces the best-effort diagnostic payload. -/
theorem llm_parse_recovery {α : Type} (jsonLoads : String → Option α)
    (raw : String) :
    (∀ v, jsonLoads (strTrim raw) = some v →
      parse_llm_json jsonLoads raw = some v) ∧
    (jsonLoads (strTrim raw) = none →
      strStartsWith (strTrim raw) ("```") = true →
      ∀ v, jsonLoads (stripFences (strTrim raw)) = some v →
        parse_llm_json jsonLoads raw = some v) ∧
    (jsonLoads (strTrim raw) = none →
      (if strStartsWith (strTrim raw) ("```")
       then jsonLoads (stripFences (strTrim raw)) else none) = none →
      ∀ c, firstBraceBlock (strTrim raw) = some c →
        parse_llm_json jsonLoads raw = jsonLoads c) ∧
    (jsonLoads (strTrim raw) = none →
      (if strStartsWith (strTrim raw) ("```")
       then jsonLoads (stripFences (strTrim raw)) else none) = none →
      firstBraceBlock (strTrim raw) = none →
      parse_llm_json jsonLoads raw = none) ∧
    (∀ (row : StructuredManifestRow) (iid rawResp err : String)
        (now : DateTime),
      (handle_parse_failure row iid rawResp err now).1.extracted = true ∧
      (handle_parse_failure row iid rawResp err now).1.valid = false ∧
      (handle_parse_failure row iid rawResp err now).1.validation_errors
        = some ("JSON parse error: " ++ err) ∧
      (handle_parse_failure row iid rawResp err now).2
        = { incident_id := iid,
            errors := ["JSON parse error: " ++ err],
            raw := strTake rawResp 2000 }) := by
  refine ⟨?_, ?_, ?_, ?_,
    fun row iid rawResp err now => ⟨rfl, rfl, rfl, rfl⟩⟩
  · intro v hv
    simp only [parse_llm_json, hv]
  · intro h1 h2 v hv
    simp only [parse_llm_json, h1, h2, if_true, hv]
  · intro h1 h2 c hc
    simp only [parse_llm_json, h1, h2, hc]
  · intro h1 h2 h3
    simp only [parse_llm_json, h1, h2, h3]

def c8jl2 : String → Option Nat :=
  fun s => if strStartsWith s ("```") then none else some 0

def c8raw2 : String := "```\nok\n```"

def c8jl3 : String → Option Nat :=
  fun s => if s = ("\x7b\x7d") then some 5 else none

def c8raw3 : String := "see \x7b\x7d"

theorem llm_parse_recovery_witness :
    parse_llm_json (fun _ : String => some 0) ("x") = some 0 ∧
    parse_llm_json c8jl2 c8raw2 = some 0 ∧
    parse_llm_json c8jl3 c8raw3 = c8jl3 ("\x7b\x7d") ∧
    parse_llm_json (fun _ : String => (none : Option Nat)) ("abc")
      = none ∧
    (handle_parse_failure
        { incident_id := "i", source_text_path := "s",
          output_json_path := "o", provider := "p" }
        ("i") ("raw") ("bad") c7now).1.extracted = true :=
  ⟨(llm_parse_recovery (fun _ : String => some 0) ("x")).1 0 rfl,
   (llm_parse_recovery c8jl2 c8raw2).2.1 (by decide) (by decide) 0
     (by decide),
   (llm_parse_recovery c8jl3 c8raw3).2.2.1 (by decide) (by decide)
     ("\x7b\x7d") (by decide),
   (llm_parse_recovery (fun _ : String => (none : Option Nat))
     ("abc")).2.2.2.1 rfl (by decide) (by decide),
   ((llm_parse_recovery (fun _ : String => (none : Option Nat))
     ("abc")).2.2.2.2 _ ("i") ("raw") ("bad") c7now).1⟩

/-- C9 counterexample: the unconditional-upsert claim, stated over all
lists, fails when a list repeats an `incident_id`: with two same-id rows
in `new` only the last survives (so "the output contains the new row"
fails for the first), and an existing row shadowed by a later same-id
existing row does not survive even though its id never occurs in
`new`. -/
def c9mk (i p : String) : StructuredManifestRow :=
  { incident_id := i, source_text_path := "s", output_json_path := "o",
    provider := p }

def c9e1 : StructuredManifestRow := c9mk ("I1") ("p1")

def c9e2 : StructuredManifestRow := c9mk ("I1") ("p2")

def c9eK : StructuredManifestRow := c9mk ("K") ("p3")

def c9n1 : StructuredManifestRow := c9mk ("K") ("p4")

def c9n2 : StructuredManifestRow := c9mk ("K") ("p5")

theorem structured_merge_counterexample :
    ¬((∀ n ∈ [c9n1, c9n2],
        (∃ e ∈ [c9e1, c9e2, c9eK], e.incident_id = n.incident_id) →
        n ∈ merge_structured_manifests [c9e1, c9e2, c9eK] [c9n1, c9n2]) ∧
      (∀ e ∈ [c9e1, c9e2, c9eK],
        (∀ n ∈ [c9n1, c9n2], n.incident_id ≠ e.incident_id) →
        e ∈ merge_structured_manifests [c9e1, c9e2, c9eK]
          [c9n1, c9n2])) := by
  decide

/-- C9 (amended): the StructuredRecord merge is an unconditional upsert
keyed by `incident_id` alone — for every id occurring in both lists the
output contains the last `new` row with that id, unchanged (no
enrichment), and every `existing` row that is the last of its id in
`existing` and whose id does not occur in `new` survives unchanged. -/
theorem structured_merge_upsert (existing new : List StructuredManifestRow) :
    (∀ (i : String) (m : StructuredManifestRow),
      (∃ e ∈ existing, e.incident_id = i) →
      lastWithId new i = some m →
      m ∈ merge_structured_manifests existing new) ∧
    (∀ e ∈ existing,
      (∀ n ∈ new, n.incident_id ≠ e.incident_id) →
      lastWithId existing e.incident_id = some e →
      e ∈ merge_structured_manifests existing new) := by
  constructor
  · intro i m _ hm
    have hf : findRow
        (new.foldl (fun idx row => upsert idx row.incident_id row)
          (existing.foldl (fun idx row => upsert idx row.incident_id row)
            [])) i = some m := by
      rw [findRow_foldUpsertId new _ i, hm]
    exact mem_snd_of_findRow _ i m hf
  · intro e he hall hlast
    have hn : lastWithId new e.incident_id = none :=
      (lastWithId_eq_none new e.incident_id).2 hall
    have hf : findRow
        (new.foldl (fun idx row => upsert idx row.incident_id row)
          (existing.foldl (fun idx row => upsert idx row.incident_id row)
            [])) e.incident_id = some e := by
      simp only [findRow_foldUpsertId, hn, hlast]
    exact mem_snd_of_findRow _ e.incident_id e hf

def c9we : StructuredManifestRow := c9mk ("A") ("p1")

def c9wn : StructuredManifestRow := c9mk ("A") ("p2")

def c9we2 : StructuredManifestRow := c9mk ("B") ("p3")

theorem structured_merge_upsert_witness :
    c9wn ∈ merge_structured_manifests [c9we, c9we2] [c9wn] ∧
    c9we2 ∈ merge_structured_manifests [c9we, c9we2] [c9wn] :=
  ⟨(structured_merge_upsert [c9we, c9we2] [c9wn]).1 ("A") c9wn
     ⟨c9we, by decide, by decide⟩ (by decide),
   (structured_merge_upsert [c9we, c9we2] [c9wn]).2 c9we2 (by decide)
     (by decide) (by decide)⟩

end Bowtie
